import Mathlib

/-!
# pulp-dsp: complex int16 matrix multiplication, its parallel glue code, and the q16 cosine

A shallow embedding of

* `src/MatrixFunctions/mat_mult_cmplx/kernels/plp_mat_mult_cmplx_i16s_rv32im.c`
* `src/MatrixFunctions/mat_mult_trans_cmplx/plp_mat_mult_trans_cmplx_i16_parallel.c`
* `src/FastMathFunctions/kernels/plp_cos_q16s_rv32im.c`

Machine integers are unbounded `Int`/`Nat` with the wrap written out:
`wrap32`/`wrap16` reinterpret a value as a two's-complement `int32_t`/`int16_t`,
`u32`/`u16` as `uint32_t`/`uint16_t`.
-/

namespace PulpDsp

/-! ## Machine integers -/

/-- Value of an integer after conversion to `int32_t` (two's complement, RV32). -/
def wrap32 (x : Int) : Int := (x + 2147483648) % 4294967296 - 2147483648

/-- Value of an integer after conversion to `int16_t`. -/
def wrap16 (x : Int) : Int := (x + 32768) % 65536 - 32768

/-- Value of a natural number after reduction to `uint32_t`. -/
def u32 (x : Nat) : Nat := x % 4294967296

/-- Value of an integer after conversion to `uint16_t`. -/
def u16 (x : Int) : Int := x % 65536

/-- Value of an integer after conversion to `uint32_t`. -/
def toU32 (x : Int) : Int := x % 4294967296

/-- Predicate: the value fits an `int16_t`. -/
def IsInt16 (x : Int) : Prop := -32768 ≤ x ∧ x ≤ 32767

/-- Predicate: the value fits an `int32_t`. -/
def IsInt32 (x : Int) : Prop := -2147483648 ≤ x ∧ x ≤ 2147483647

instance (x : Int) : Decidable (IsInt16 x) := by unfold IsInt16; infer_instance

instance (x : Int) : Decidable (IsInt32 x) := by unfold IsInt32; infer_instance

/-! ## Memory

Pointers are object handles.  `int16_t` objects and `int32_t` objects live in
two separate maps (a `const int16_t *` and an `int32_t *` never alias), each
taking a handle and an element index to the stored value.  `log` is ghost
state: every `int32_t` store performed so far, in program order, as
`(pointer, index, value)`. -/

/-- One `int32_t` store: pointer handle, element index, stored value. -/
abbrev StoreEv := Nat × Nat × Int

/-- The memory the kernels work on. -/
structure Heap where
  /-- Contents of the `int16_t` objects. -/
  i16 : Nat → Nat → Int
  /-- Contents of the `int32_t` objects. -/
  i32 : Nat → Nat → Int
  /-- Ghost log of the `int32_t` stores performed, oldest first. -/
  log : List StoreEv

/-- The load `p[i]` through a `const int16_t *`: the cell read as an `int16_t`. -/
def ld16 (mem : Nat → Nat → Int) (p i : Nat) : Int := wrap16 (mem p i)

/-- The store `p[i] = v` through an `int32_t *`. -/
def Heap.store32 (h : Heap) (p i : Nat) (v : Int) : Heap :=
  { h with
    i32 := Function.update h.i32 p (Function.update (h.i32 p) i v)
    log := h.log ++ [(p, i, v)] }

/-- A sequence of stores, performed left to right. -/
def Heap.storeAll (h : Heap) (l : List StoreEv) : Heap :=
  l.foldl (fun g e => g.store32 e.1 e.2.1 e.2.2) h

/-- Pointer and index of a store. -/
def StoreEv.key (e : StoreEv) : Nat × Nat := (e.1, e.2.1)

/-- The stores performed between the heap `h` and the later heap `h'`. -/
def newStores (h h' : Heap) : List StoreEv := h'.log.drop h.log.length

/-! ## plp_mat_mult_cmplx_i16s_rv32im -/

/-- The index expression `(r * cols + c) * 2 + k`, evaluated in `uint32_t`
as in the source (`r`, `c` are `int` loop counters converted to unsigned by
the multiplication with the `uint32_t` dimension). -/
def cidx (r cols c k : Nat) : Nat := u32 (u32 (u32 (u32 (r * cols) + c) * 2) + k)

/-- Body of the innermost loop (source lines 105-110): one multiply-accumulate
step on `(sum_re, sum_im)`, all arithmetic in `int32_t`; `mem` is the
`int16_t` part of the heap. -/
def macStep (mem : Nat → Nat → Int) (pSrcA pSrcB N O m o : Nat)
    (acc : Int × Int) (n : Nat) : Int × Int :=
  let a_re := wrap32 (ld16 mem pSrcA (cidx m N n 0))
  let a_im := wrap32 (ld16 mem pSrcA (cidx m N n 1))
  let b_re := wrap32 (ld16 mem pSrcB (cidx n O o 0))
  let b_im := wrap32 (ld16 mem pSrcB (cidx n O o 1))
  (wrap32 (acc.1 + wrap32 (wrap32 (a_re * b_re) - wrap32 (a_im * b_im))),
   wrap32 (acc.2 + wrap32 (wrap32 (a_re * b_im) + wrap32 (a_im * b_re))))

/-- The loop over `n` (source lines 102-111), started from `sum_re = sum_im = 0`. -/
def cellSums (mem : Nat → Nat → Int) (pSrcA pSrcB N O m o : Nat) : Int × Int :=
  (List.range N).foldl (macStep mem pSrcA pSrcB N O m o) (0, 0)

/-- Body of the loop over `o` (source lines 102-113): accumulate, then store
the real and the imaginary part. -/
def cellBody (pSrcA pSrcB N O pDstC m : Nat) (h : Heap) (o : Nat) : Heap :=
  let sums := cellSums h.i16 pSrcA pSrcB N O m o
  (h.store32 pDstC (cidx m O o 0) sums.1).store32 pDstC (cidx m O o 1) sums.2

/-- Body of the loop over `m` (source lines 101-114). -/
def rowBody (pSrcA pSrcB N O pDstC : Nat) (h : Heap) (m : Nat) : Heap :=
  (List.range O).foldl (cellBody pSrcA pSrcB N O pDstC m) h

/-- The kernel `plp_mat_mult_cmplx_i16s_rv32im` (source lines 90-123,
`BASIC_VERSION`), as a heap transformer.  Each loop runs its counter from `0`
up to the dimension, which is compared as `uint32_t`. -/
def plp_mat_mult_cmplx_i16s_rv32im (pSrcA pSrcB M N O pDstC : Nat) (h : Heap) : Heap :=
  (List.range M).foldl (rowBody pSrcA pSrcB N O pDstC) h

/-- The two stores of output cell `(m, o)`. -/
def cellStores (mem : Nat → Nat → Int) (pSrcA pSrcB N O pDstC m o : Nat) : List StoreEv :=
  [(pDstC, cidx m O o 0, (cellSums mem pSrcA pSrcB N O m o).1),
   (pDstC, cidx m O o 1, (cellSums mem pSrcA pSrcB N O m o).2)]

/-- The stores of output row `m`, in program order. -/
def rowStores (mem : Nat → Nat → Int) (pSrcA pSrcB N O pDstC m : Nat) : List StoreEv :=
  (List.range O).flatMap (cellStores mem pSrcA pSrcB N O pDstC m)

/-- The stores of the whole kernel, in program order. -/
def kernelStores (mem : Nat → Nat → Int) (pSrcA pSrcB M N O pDstC : Nat) : List StoreEv :=
  (List.range M).flatMap (rowStores mem pSrcA pSrcB N O pDstC)

/-- The real part added by the inner-loop step `n`, over the unbounded integers. -/
def reTerm (mem : Nat → Nat → Int) (pSrcA pSrcB N O m o n : Nat) : Int :=
  ld16 mem pSrcA (cidx m N n 0) * ld16 mem pSrcB (cidx n O o 0)
    - ld16 mem pSrcA (cidx m N n 1) * ld16 mem pSrcB (cidx n O o 1)

/-- The imaginary part added by the inner-loop step `n`, over the unbounded integers. -/
def imTerm (mem : Nat → Nat → Int) (pSrcA pSrcB N O m o n : Nat) : Int :=
  ld16 mem pSrcA (cidx m N n 0) * ld16 mem pSrcB (cidx n O o 1)
    + ld16 mem pSrcA (cidx m N n 1) * ld16 mem pSrcB (cidx n O o 0)

/-- Real part of element `(i, j)` of the interleaved complex `int16_t` matrix
at `p` with `cols` columns: `X[2*(i*cols+j)]`. -/
def elemRe (mem : Nat → Nat → Int) (p cols i j : Nat) : Int := ld16 mem p (2 * (i * cols + j))

/-- Imaginary part of element `(i, j)`: `X[2*(i*cols+j)+1]`. -/
def elemIm (mem : Nat → Nat → Int) (p cols i j : Nat) : Int := ld16 mem p (2 * (i * cols + j) + 1)

/-- Real part of `(A*B)[m,o]` over the unbounded integers. -/
def exactRe (mem : Nat → Nat → Int) (pSrcA pSrcB N O m o : Nat) : Int :=
  ∑ n ∈ Finset.range N,
    (elemRe mem pSrcA N m n * elemRe mem pSrcB O n o - elemIm mem pSrcA N m n * elemIm mem pSrcB O n o)

/-- Imaginary part of `(A*B)[m,o]` over the unbounded integers. -/
def exactIm (mem : Nat → Nat → Int) (pSrcA pSrcB N O m o : Nat) : Int :=
  ∑ n ∈ Finset.range N,
    (elemRe mem pSrcA N m n * elemIm mem pSrcB O n o + elemIm mem pSrcA N m n * elemRe mem pSrcB O n o)

/-- Real part of the first `k` terms of `(A*B)[m,o]`, over the unbounded integers. -/
def partRe (mem : Nat → Nat → Int) (pSrcA pSrcB N O m o k : Nat) : Int :=
  ∑ n ∈ Finset.range k,
    (elemRe mem pSrcA N m n * elemRe mem pSrcB O n o - elemIm mem pSrcA N m n * elemIm mem pSrcB O n o)

/-- Imaginary part of the first `k` terms of `(A*B)[m,o]`, over the unbounded integers. -/
def partIm (mem : Nat → Nat → Int) (pSrcA pSrcB N O m o k : Nat) : Int :=
  ∑ n ∈ Finset.range k,
    (elemRe mem pSrcA N m n * elemIm mem pSrcB O n o + elemIm mem pSrcA N m n * elemRe mem pSrcB O n o)

/-! ## plp_mat_mult_trans_cmplx_i16_parallel

The glue code talks to the platform: it queries `rt_cluster_id()`, prints with
`printf`, and hands a worker entry point and a task descriptor to
`rt_team_fork`.  The platform state is threaded through explicitly. -/

/-- The worker entry points handed to `rt_team_fork`. -/
inductive WorkerFn where
  | plp_mat_mult_trans_cmplx_i16p_xpulpv2
  deriving DecidableEq

/-- The task descriptor `plp_mat_mult_cmplx_instance_i16` (declared in
`plp_math.h`), with the fields the glue code initialises. -/
structure plp_mat_mult_cmplx_instance_i16 where
  pSrcA : Nat
  pSrcB : Nat
  M : Nat
  N : Nat
  O : Nat
  nPE : Nat
  pDstC : Nat
  deriving DecidableEq

/-- One call of `rt_team_fork(nPE, entry, args)`. -/
structure ForkCall where
  nPE : Nat
  entry : WorkerFn
  args : plp_mat_mult_cmplx_instance_i16
  deriving DecidableEq

/-- State of the platform around a call of the glue code. -/
structure World where
  /-- The value `rt_cluster_id()` returns to the caller. -/
  cluster_id : Nat
  /-- The memory. -/
  heap : Heap
  /-- Ghost log of the messages printed, oldest first. -/
  stdout : List String
  /-- Ghost log of the `rt_team_fork` calls made, oldest first. -/
  forks : List ForkCall

/-- The call `printf(msg)`. -/
def printf (msg : String) (w : World) : World := { w with stdout := w.stdout ++ [msg] }

/-- Modelled from the spec: number of output rows of the compute element
`core_id` (section 4.4: the `M` rows of `C` are split into `nPE` contiguous
blocks, the remainder rows go one each to the lowest-indexed elements).  The
worker's source is not among the sources at hand. -/
def workerRows (M nPE core_id : Nat) : Nat := M / nPE + (if core_id < M % nPE then 1 else 0)

/-- Modelled from the spec: first output row of the compute element `core_id`
(section 4.4; the worker that derives its row range is not among the sources
at hand).  The blocks are contiguous, so it is the number of rows of the
elements before it. -/
def workerStart (M nPE core_id : Nat) : Nat :=
  ((List.range core_id).map (workerRows M nPE)).sum

/-- Modelled from the spec: the per-element worker
`plp_mat_mult_trans_cmplx_i16p_xpulpv2`, whose source is not among the sources
at hand.  Section 4.4: the element computes its own block of whole output rows
"using exactly the algorithm of §4.3 restricted to its row range", so the rows
are computed by the loop body of the reference kernel.  (The glue code's
documentation calls `pSrcB` a matrix of shape `OxN`; the operand layout here
is the one of §4.3, as the specification words it.) -/
def plp_mat_mult_trans_cmplx_i16p_xpulpv2 (core_id : Nat)
    (args : plp_mat_mult_cmplx_instance_i16) (h : Heap) : Heap :=
  (List.range' (workerStart args.M args.nPE core_id) (workerRows args.M args.nPE core_id)).foldl
    (rowBody args.pSrcA args.pSrcB args.N args.O args.pDstC) h

/-- The stores of the worker `core_id`, in program order. -/
def workerStores (mem : Nat → Nat → Int) (args : plp_mat_mult_cmplx_instance_i16)
    (core_id : Nat) : List StoreEv :=
  (List.range' (workerStart args.M args.nPE core_id) (workerRows args.M args.nPE core_id)).flatMap
    (rowStores mem args.pSrcA args.pSrcB args.N args.O args.pDstC)

/-- The code behind a worker entry point, run on compute element `core_id`. -/
def WorkerFn.run : WorkerFn → Nat → plp_mat_mult_cmplx_instance_i16 → Heap → Heap
  | .plp_mat_mult_trans_cmplx_i16p_xpulpv2 => PulpDsp.plp_mat_mult_trans_cmplx_i16p_xpulpv2

/-- Modelled from the spec: the workers of a team (section 5: once dispatched a
worker runs to completion, and the result does not depend on the scheduling
order), run one after the other in the order `sched` of their element indices.
The platform's fork-join service is not among the sources at hand. -/
def teamRun (sched : List Nat) (entry : WorkerFn) (args : plp_mat_mult_cmplx_instance_i16)
    (h : Heap) : Heap :=
  sched.foldl (fun g core_id => entry.run core_id args g) h

/-- Modelled from the spec: the platform service `rt_team_fork`, which is not
among the sources at hand (sections 4.4 and 6): spawn exactly `nPE` workers,
element indices `0 .. nPE-1`, each running `entry(args)`, and return once all
of them have completed. -/
def rt_team_fork (nPE : Nat) (entry : WorkerFn) (args : plp_mat_mult_cmplx_instance_i16)
    (w : World) : World :=
  { w with
    heap := teamRun (List.range nPE) entry args w.heap
    forks := w.forks ++ [{ nPE := nPE, entry := entry, args := args }] }

/-- The glue code `plp_mat_mult_trans_cmplx_i16_parallel` (source lines 55-73).
`ARCHI_FC_CID` is a platform macro and a parameter here. -/
def plp_mat_mult_trans_cmplx_i16_parallel (ARCHI_FC_CID : Nat)
    (pSrcA pSrcB M N O nPE pDstC : Nat) (w : World) : World :=
  if w.cluster_id = ARCHI_FC_CID then
    printf "parallel processing supported only for cluster side\n" w
  else
    let args : plp_mat_mult_cmplx_instance_i16 :=
      { pSrcA := pSrcA, pSrcB := pSrcB, M := M, N := N, O := O, nPE := nPE, pDstC := pDstC }
    rt_team_fork nPE WorkerFn.plp_mat_mult_trans_cmplx_i16p_xpulpv2 args w

/-! ## plp_cos_q16s_rv32im

`FAST_MATH_Q16_SHIFT` and `sinTable_q16` come from headers that are not part
of the sources at hand; they are parameters of the model. -/

/-- Arithmetic right shift of a signed value by 16 (`>> 16` on `int32_t`). -/
def asr16 (x : Int) : Int := x / 65536

/-- Source lines 54-57: add a quarter cycle, then re-wrap a negative phase.
The `uint16_t` operand is promoted to `int` for the addition and the sum is
converted back to `int16_t` by the assignment. -/
def cosPhase (x : Int) : Int :=
  let x1 := wrap16 (wrap32 (u16 x + 0x2000))
  if x1 < 0 then wrap16 (wrap32 (u16 x1 + 0x8000)) else x1

/-- Source line 60: `index = (uint32_t)x >> FAST_MATH_Q16_SHIFT`, for the
phase `x` after lines 54-57. -/
def cosIndex (FAST_MATH_Q16_SHIFT : Nat) (x : Int) : Int :=
  wrap32 (toU32 x / 2 ^ FAST_MATH_Q16_SHIFT)

/-- Source line 63: `fract = (x - (index << FAST_MATH_Q16_SHIFT)) << 9`. -/
def cosFract (FAST_MATH_Q16_SHIFT : Nat) (x index : Int) : Int :=
  wrap16 (wrap32 (wrap32 (x - wrap32 (index * 2 ^ FAST_MATH_Q16_SHIFT)) * 512))

/-- Source line 70: `cosVal = (int32_t)(0x8000 - fract) * a >> 16`. -/
def cosVal1 (fract a : Int) : Int :=
  wrap16 (asr16 (wrap32 (wrap32 (0x8000 - fract) * a)))

/-- Source line 71:
`cosVal = (int16_t)((((int32_t)cosVal << 16) + ((int32_t)fract * b)) >> 16)`. -/
def cosVal2 (fract a b : Int) : Int :=
  wrap16 (asr16 (wrap32 (wrap32 (cosVal1 fract a * 65536) + wrap32 (fract * b))))

/-- Source lines 70-74: the interpolation and the returned `cosVal << 1`,
computed in `int` and converted to the `int16_t` return type. -/
def cosInterp (fract a b : Int) : Int := wrap16 (wrap32 (cosVal2 fract a b * 2))

/-- The exact rational linear interpolation
`((0x8000 - fract) * a + fract * b) / 0x8000` between `a` and `b`. -/
def exactInterp (fract a b : Int) : ℚ := (((0x8000 - fract) * a + fract * b : Int) : ℚ) / 0x8000

/-- The read `sinTable_q16[i]` of an `int16_t` table; `none` when `i` is
outside the table. -/
def tableRead (sinTable_q16 : List Int) (i : Int) : Option Int :=
  if i < 0 then none else (sinTable_q16[i.toNat]?).map wrap16

/-- The function `plp_cos_q16s_rv32im` (source lines 47-75). -/
def plp_cos_q16s_rv32im (FAST_MATH_Q16_SHIFT : Nat) (sinTable_q16 : List Int) (x : Int) :
    Option Int :=
  let x := cosPhase x
  let index := cosIndex FAST_MATH_Q16_SHIFT x
  let fract := cosFract FAST_MATH_Q16_SHIFT x index
  match tableRead sinTable_q16 index, tableRead sinTable_q16 (wrap32 (index + 1)) with
  | some a, some b => some (cosInterp fract a b)
  | _, _ => none

/-- Modelled from the spec: the table sine evaluator, whose source
(`plp_sin_q16s_rv32im`) is not among the sources at hand.  It is the path of
lines 55-74 of the cosine without the initial quarter-cycle shift: re-wrap a
negative phase by adding `0x8000`, `index = phase >> shift`,
`fract = low bits << 9`, the two-term interpolation and the final doubling. -/
def plp_sin_q16s_rv32im (FAST_MATH_Q16_SHIFT : Nat) (sinTable_q16 : List Int) (x : Int) :
    Option Int :=
  let x0 := wrap16 x
  let x := if x0 < 0 then wrap16 (wrap32 (u16 x0 + 0x8000)) else x0
  let index := wrap32 (toU32 x / 2 ^ FAST_MATH_Q16_SHIFT)
  let fract := wrap16 (wrap32 (wrap32 (x - wrap32 (index * 2 ^ FAST_MATH_Q16_SHIFT)) * 512))
  match tableRead sinTable_q16 index, tableRead sinTable_q16 (wrap32 (index + 1)) with
  | some a, some b =>
    let sinVal := wrap16 (asr16 (wrap32 (wrap32 (0x8000 - fract) * a)))
    let sinVal := wrap16 (asr16 (wrap32 (wrap32 (sinVal * 65536) + wrap32 (fract * b))))
    some (wrap16 (wrap32 (sinVal * 2)))
  | _, _ => none

/-! ## Concrete states for evaluation -/

/-- A heap holding the `int16_t` arrays `a` at handle 0 and `b` at handle 1,
the `int32_t` array `c` at handle 2, and nothing logged. -/
def mkHeap (a b c : List Int) : Heap :=
  { i16 := fun p i => if p = 0 then a.getD i 0 else if p = 1 then b.getD i 0 else 0
    i32 := fun p i => if p = 2 then c.getD i 0 else 0
    log := [] }

/-- The first `n` elements of the `int32_t` object `p`. -/
def Heap.read32 (h : Heap) (p n : Nat) : List Int := (List.range n).map (h.i32 p)

/-- A platform state with the given cluster id and heap, and empty logs. -/
def mkWorld (cluster_id : Nat) (h : Heap) : World :=
  { cluster_id := cluster_id, heap := h, stdout := [], forks := [] }

/-! # Theorems -/

/-! ## Machine integers and stores -/

theorem wrap32_modEq (x : Int) : wrap32 x ≡ x [ZMOD 4294967296] := by
  unfold wrap32 Int.ModEq; omega

theorem wrap32_congr {a b : Int} (h : a ≡ b [ZMOD 4294967296]) : wrap32 a = wrap32 b := by
  unfold wrap32; unfold Int.ModEq at h; omega

theorem wrap32_of_isInt32 {x : Int} (h : IsInt32 x) : wrap32 x = x := by
  unfold wrap32; unfold IsInt32 at h; omega

theorem isInt16_wrap16 (x : Int) : IsInt16 (wrap16 x) := by
  unfold wrap16 IsInt16; omega

theorem wrap16_of_isInt16 {x : Int} (h : IsInt16 x) : wrap16 x = x := by
  unfold wrap16; unfold IsInt16 at h; omega

theorem wrap32_wrap16 (x : Int) : wrap32 (wrap16 x) = wrap16 x := by
  unfold wrap32 wrap16; omega

theorem macStep_modEq (mem : Nat → Nat → Int) (pSrcA pSrcB N O m o : Nat)
    (acc : Int × Int) (n : Nat) (r i : Int)
    (hr : acc.1 ≡ r [ZMOD 4294967296]) (hi : acc.2 ≡ i [ZMOD 4294967296]) :
    macStep mem pSrcA pSrcB N O m o acc n =
      (wrap32 (r + reTerm mem pSrcA pSrcB N O m o n),
       wrap32 (i + imTerm mem pSrcA pSrcB N O m o n)) := by
  unfold macStep reTerm imTerm
  simp only [ld16, wrap32_wrap16]
  refine Prod.ext (wrap32_congr ?_) (wrap32_congr ?_)
  · exact hr.add ((wrap32_modEq _).trans (((wrap32_modEq _).sub (wrap32_modEq _))))
  · exact hi.add ((wrap32_modEq _).trans (((wrap32_modEq _).add (wrap32_modEq _))))

theorem foldl_macStep (mem : Nat → Nat → Int) (pSrcA pSrcB N O m o : Nat) (K : Nat) :
    (List.range K).foldl (macStep mem pSrcA pSrcB N O m o) (0, 0) =
      (wrap32 (∑ n ∈ Finset.range K, reTerm mem pSrcA pSrcB N O m o n),
       wrap32 (∑ n ∈ Finset.range K, imTerm mem pSrcA pSrcB N O m o n)) := by
  induction K with
  | zero => simp [wrap32]
  | succ K ih =>
    rw [List.range_succ, List.foldl_append, ih, List.foldl_cons, List.foldl_nil,
      Finset.sum_range_succ, Finset.sum_range_succ]
    exact macStep_modEq _ _ _ _ _ _ _ _ _ _ _ (wrap32_modEq _) (wrap32_modEq _)

theorem storeAll_nil (h : Heap) : h.storeAll [] = h := rfl

theorem storeAll_cons (h : Heap) (e : StoreEv) (l : List StoreEv) :
    h.storeAll (e :: l) = (h.store32 e.1 e.2.1 e.2.2).storeAll l := rfl

theorem storeAll_append (h : Heap) (l₁ l₂ : List StoreEv) :
    h.storeAll (l₁ ++ l₂) = (h.storeAll l₁).storeAll l₂ := by
  simp [Heap.storeAll, List.foldl_append]

theorem storeAll_i16 (h : Heap) (l : List StoreEv) : (h.storeAll l).i16 = h.i16 := by
  induction l generalizing h with
  | nil => rfl
  | cons e l ih => rw [storeAll_cons, ih]; rfl

theorem storeAll_log (h : Heap) (l : List StoreEv) : (h.storeAll l).log = h.log ++ l := by
  induction l generalizing h with
  | nil => simp [storeAll_nil]
  | cons e l ih => rw [storeAll_cons, ih]; simp [Heap.store32]

theorem store32_i32_ne (h : Heap) (p i : Nat) (v : Int) (q j : Nat) (hne : (p, i) ≠ (q, j)) :
    (h.store32 p i v).i32 q j = h.i32 q j := by
  unfold Heap.store32
  by_cases hp : q = p
  · subst hp
    have hj : j ≠ i := fun hji => hne (by rw [hji])
    simp [Function.update_noteq hj]
  · simp [Function.update_noteq hp]

theorem store32_i32_eq (h : Heap) (p i : Nat) (v : Int) : (h.store32 p i v).i32 p i = v := by
  simp [Heap.store32]

theorem storeAll_i32_of_not_mem (h : Heap) (l : List StoreEv) (q j : Nat)
    (hq : ∀ e ∈ l, (e.1, e.2.1) ≠ (q, j)) : (h.storeAll l).i32 q j = h.i32 q j := by
  induction l generalizing h with
  | nil => rfl
  | cons e l ih =>
    rw [storeAll_cons, ih _ (fun e' he' => hq e' (List.mem_cons_of_mem _ he'))]
    exact store32_i32_ne _ _ _ _ _ _ (hq e (List.mem_cons_self _ _))

theorem storeAll_i32_of_mem (h : Heap) (l : List StoreEv) (q j : Nat) (v : Int)
    (hnd : (l.map StoreEv.key).Nodup) (hmem : (q, j, v) ∈ l) :
    (h.storeAll l).i32 q j = v := by
  induction l generalizing h with
  | nil => simp at hmem
  | cons e l ih =>
    rw [List.map_cons, List.nodup_cons] at hnd
    rw [storeAll_cons]
    rcases List.mem_cons.1 hmem with he | hl
    · subst he
      rw [storeAll_i32_of_not_mem]
      · exact store32_i32_eq _ _ _ _
      · intro e' he' heq
        exact hnd.1 (List.mem_map.2 ⟨e', he', heq⟩)
    · exact ih _ hnd.2 hl

theorem foldl_eq_storeAll (f : Heap → Nat → Heap) (g : (Nat → Nat → Int) → Nat → List StoreEv)
    (hf : ∀ h x, f h x = h.storeAll (g h.i16 x)) (l : List Nat) (h : Heap) :
    l.foldl f h = h.storeAll (l.flatMap (g h.i16)) := by
  induction l generalizing h with
  | nil => rfl
  | cons x l ih =>
    rw [List.foldl_cons, ih, hf, storeAll_i16, List.flatMap_cons, storeAll_append]

theorem cellBody_eq (pSrcA pSrcB N O pDstC m : Nat) (h : Heap) (o : Nat) :
    cellBody pSrcA pSrcB N O pDstC m h o =
      h.storeAll (cellStores h.i16 pSrcA pSrcB N O pDstC m o) := rfl

theorem rowBody_eq (pSrcA pSrcB N O pDstC : Nat) (h : Heap) (m : Nat) :
    rowBody pSrcA pSrcB N O pDstC h m =
      h.storeAll (rowStores h.i16 pSrcA pSrcB N O pDstC m) :=
  foldl_eq_storeAll _ (fun mem => cellStores mem pSrcA pSrcB N O pDstC m)
    (cellBody_eq pSrcA pSrcB N O pDstC m) _ h

theorem kernel_eq (pSrcA pSrcB M N O pDstC : Nat) (h : Heap) :
    plp_mat_mult_cmplx_i16s_rv32im pSrcA pSrcB M N O pDstC h =
      h.storeAll (kernelStores h.i16 pSrcA pSrcB M N O pDstC) :=
  foldl_eq_storeAll _ (fun mem => rowStores mem pSrcA pSrcB N O pDstC)
    (rowBody_eq pSrcA pSrcB N O pDstC) _ h

theorem cidx_eq (r cols c k R : Nat) (hr : r < R) (hc : c < cols) (hk : k ≤ 1)
    (hR : 2 * (R * cols) ≤ 4294967296) : cidx r cols c k = 2 * (r * cols + c) + k := by
  have h1 : (r + 1) * cols ≤ R * cols := Nat.mul_le_mul_right _ hr
  have h2 : (r + 1) * cols = r * cols + cols := by ring
  unfold cidx u32
  omega

theorem flatMap_pair_range (b K : Nat) :
    (List.range K).flatMap (fun o => [2 * (b + o), 2 * (b + o) + 1]) = List.range' (2 * b) (2 * K) := by
  induction K with
  | zero => rfl
  | succ K ih =>
    rw [List.range_succ, List.flatMap_append, ih]
    have h2 : 2 * (K + 1) = 2 + 2 * K := by ring
    rw [h2, ← List.range'_append (2 * b) (2 * K) 2 1]
    simp [List.range', Nat.mul_add]

theorem flatMap_rows_range (O M : Nat) :
    (List.range M).flatMap (fun m => List.range' (2 * (m * O)) (2 * O)) = List.range (2 * (M * O)) := by
  induction M with
  | zero => simp
  | succ M ih =>
    rw [List.range_succ, List.flatMap_append, ih]
    have h2 : 2 * ((M + 1) * O) = 2 * O + 2 * (M * O) := by ring
    rw [h2, List.range_eq_range', List.range_eq_range',
      ← List.range'_append 0 (2 * (M * O)) (2 * O) 1]
    simp

theorem rowStores_keys (mem : Nat → Nat → Int) (pSrcA pSrcB M N O pDstC m : Nat)
    (hm : m < M) (hC : 2 * (M * O) ≤ 4294967296) :
    (rowStores mem pSrcA pSrcB N O pDstC m).map StoreEv.key =
      (List.range' (2 * (m * O)) (2 * O)).map (fun i => (pDstC, i)) := by
  rw [← flatMap_pair_range, List.map_flatMap, rowStores, List.map_flatMap]
  refine List.flatMap_congr (fun o ho => ?_)
  have ho' : o < O := List.mem_range.1 ho
  simp [cellStores, StoreEv.key, cidx_eq m O o _ M hm ho' _ hC]

theorem kernelStores_keys (mem : Nat → Nat → Int) (pSrcA pSrcB M N O pDstC : Nat)
    (hC : 2 * (M * O) ≤ 4294967296) :
    (kernelStores mem pSrcA pSrcB M N O pDstC).map StoreEv.key =
      (List.range (2 * (M * O))).map (fun i => (pDstC, i)) := by
  rw [← flatMap_rows_range, List.map_flatMap, kernelStores, List.map_flatMap]
  refine List.flatMap_congr (fun m hm => ?_)
  exact rowStores_keys mem pSrcA pSrcB M N O pDstC m (List.mem_range.1 hm) hC

theorem kernelStores_keys_nodup (mem : Nat → Nat → Int) (pSrcA pSrcB M N O pDstC : Nat)
    (hC : 2 * (M * O) ≤ 4294967296) :
    ((kernelStores mem pSrcA pSrcB M N O pDstC).map StoreEv.key).Nodup := by
  rw [kernelStores_keys _ _ _ _ _ _ _ hC]
  exact (List.nodup_range _).map (fun a b hab => by simpa using hab)

theorem cellStores_mem_kernelStores (mem : Nat → Nat → Int) (pSrcA pSrcB M N O pDstC m o : Nat)
    (hm : m < M) (ho : o < O) (e : StoreEv)
    (he : e ∈ cellStores mem pSrcA pSrcB N O pDstC m o) :
    e ∈ kernelStores mem pSrcA pSrcB M N O pDstC :=
  List.mem_flatMap.2 ⟨m, List.mem_range.2 hm, List.mem_flatMap.2 ⟨o, List.mem_range.2 ho, he⟩⟩

/-! ## The reference kernel: value of every output cell -/

theorem cellSums_eq (mem : Nat → Nat → Int) (pSrcA pSrcB M N O m o : Nat)
    (hm : m < M) (ho : o < O)
    (hA : 2 * (M * N) ≤ 4294967296) (hB : 2 * (N * O) ≤ 4294967296) :
    cellSums mem pSrcA pSrcB N O m o =
      (wrap32 (exactRe mem pSrcA pSrcB N O m o), wrap32 (exactIm mem pSrcA pSrcB N O m o)) := by
  unfold cellSums exactRe exactIm
  rw [foldl_macStep]
  have hterm : ∀ n ∈ Finset.range N,
      reTerm mem pSrcA pSrcB N O m o n =
        elemRe mem pSrcA N m n * elemRe mem pSrcB O n o
          - elemIm mem pSrcA N m n * elemIm mem pSrcB O n o ∧
      imTerm mem pSrcA pSrcB N O m o n =
        elemRe mem pSrcA N m n * elemIm mem pSrcB O n o
          + elemIm mem pSrcA N m n * elemRe mem pSrcB O n o := by
    intro n hn
    have hn' : n < N := Finset.mem_range.1 hn
    unfold reTerm imTerm elemRe elemIm
    rw [cidx_eq m N n 0 M hm hn' (by omega) hA, cidx_eq m N n 1 M hm hn' (by omega) hA,
      cidx_eq n O o 0 N hn' ho (by omega) hB, cidx_eq n O o 1 N hn' ho (by omega) hB]
    exact ⟨rfl, rfl⟩
  rw [Finset.sum_congr rfl (fun n hn => (hterm n hn).1),
    Finset.sum_congr rfl (fun n hn => (hterm n hn).2)]

/-- C1: under the no-wrap condition on the index arithmetic, every output cell
`(m, o)` holds the exact integer real and imaginary parts of `(A*B)[m,o]`,
each reduced to a signed 32-bit value modulo `2^32`. -/
theorem mat_mult_cmplx_eq_wrapped_exact (pSrcA pSrcB M N O pDstC : Nat) (h : Heap)
    (hA : 2 * (M * N) ≤ 4294967296) (hB : 2 * (N * O) ≤ 4294967296)
    (hC : 2 * (M * O) ≤ 4294967296) (m o : Nat) (hm : m < M) (ho : o < O) :
    (plp_mat_mult_cmplx_i16s_rv32im pSrcA pSrcB M N O pDstC h).i32 pDstC (2 * (m * O + o))
        = wrap32 (exactRe h.i16 pSrcA pSrcB N O m o) ∧
    (plp_mat_mult_cmplx_i16s_rv32im pSrcA pSrcB M N O pDstC h).i32 pDstC (2 * (m * O + o) + 1)
        = wrap32 (exactIm h.i16 pSrcA pSrcB N O m o) := by
  rw [kernel_eq]
  have hnd := kernelStores_keys_nodup h.i16 pSrcA pSrcB M N O pDstC hC
  have hcell := cellSums_eq h.i16 pSrcA pSrcB M N O m o hm ho hA hB
  constructor
  · refine storeAll_i32_of_mem h _ _ _ _ hnd ?_
    refine cellStores_mem_kernelStores _ _ _ M _ _ _ m o hm ho _ ?_
    simp [cellStores, hcell, cidx_eq m O o 0 M hm ho (by omega) hC]
  · refine storeAll_i32_of_mem h _ _ _ _ hnd ?_
    refine cellStores_mem_kernelStores _ _ _ M _ _ _ m o hm ho _ ?_
    simp [cellStores, hcell, cidx_eq m O o 1 M hm ho (by omega) hC]

theorem mat_mult_cmplx_eq_wrapped_exact_witness :
    (plp_mat_mult_cmplx_i16s_rv32im 0 1 1 2 1 2 (mkHeap [1, 2, 3, 0] [1, 0, 0, 1] [7, 7])).i32 2
        (2 * (0 * 1 + 0))
        = wrap32 (exactRe (mkHeap [1, 2, 3, 0] [1, 0, 0, 1] [7, 7]).i16 0 1 2 1 0 0) ∧
    (plp_mat_mult_cmplx_i16s_rv32im 0 1 1 2 1 2 (mkHeap [1, 2, 3, 0] [1, 0, 0, 1] [7, 7])).i32 2
        (2 * (0 * 1 + 0) + 1)
        = wrap32 (exactIm (mkHeap [1, 2, 3, 0] [1, 0, 0, 1] [7, 7]).i16 0 1 2 1 0 0) :=
  mat_mult_cmplx_eq_wrapped_exact 0 1 1 2 1 2 (mkHeap [1, 2, 3, 0] [1, 0, 0, 1] [7, 7])
    (by decide) (by decide) (by decide) 0 0 (by decide) (by decide)

/-! ## The glue code on the control core -/

/-- C2: on the control core (`rt_cluster_id() = ARCHI_FC_CID`) the glue code
leaves the whole memory as it was (the output buffer in every slot, no store
performed), makes no `rt_team_fork` call, and its only effect is printing the
diagnostic. -/
theorem parallel_on_fc_only_prints (ARCHI_FC_CID pSrcA pSrcB M N O nPE pDstC : Nat) (w : World)
    (hfc : w.cluster_id = ARCHI_FC_CID) :
    (plp_mat_mult_trans_cmplx_i16_parallel ARCHI_FC_CID pSrcA pSrcB M N O nPE pDstC w).heap
        = w.heap ∧
    (plp_mat_mult_trans_cmplx_i16_parallel ARCHI_FC_CID pSrcA pSrcB M N O nPE pDstC w).forks
        = w.forks ∧
    (plp_mat_mult_trans_cmplx_i16_parallel ARCHI_FC_CID pSrcA pSrcB M N O nPE pDstC w).stdout
        = w.stdout ++ ["parallel processing supported only for cluster side\n"] ∧
    plp_mat_mult_trans_cmplx_i16_parallel ARCHI_FC_CID pSrcA pSrcB M N O nPE pDstC w
        = { w with stdout := w.stdout ++ ["parallel processing supported only for cluster side\n"] } := by
  unfold plp_mat_mult_trans_cmplx_i16_parallel
  rw [if_pos hfc]
  exact ⟨rfl, rfl, rfl, rfl⟩

theorem parallel_on_fc_only_prints_witness :
    (plp_mat_mult_trans_cmplx_i16_parallel 32 0 1 1 2 1 4 2
        (mkWorld 32 (mkHeap [1, 2, 3, 0] [1, 0, 0, 1] [7, 7]))).heap.read32 2 2 = [7, 7] ∧
    (plp_mat_mult_trans_cmplx_i16_parallel 32 0 1 1 2 1 4 2
        (mkWorld 32 (mkHeap [1, 2, 3, 0] [1, 0, 0, 1] [7, 7]))).forks = [] ∧
    (plp_mat_mult_trans_cmplx_i16_parallel 32 0 1 1 2 1 4 2
        (mkWorld 32 (mkHeap [1, 2, 3, 0] [1, 0, 0, 1] [7, 7]))).stdout
        = ["parallel processing supported only for cluster side\n"] :=
  have h := parallel_on_fc_only_prints 32 0 1 1 2 1 4 2
    (mkWorld 32 (mkHeap [1, 2, 3, 0] [1, 0, 0, 1] [7, 7])) rfl
  ⟨by rw [h.1]; rfl, h.2.1, h.2.2.1⟩

/-! ## The cosine: table index, periodicity, phase shift -/

theorem cosPhase_eq (x : Int) : cosPhase x = (x + 8192) % 32768 := by
  unfold cosPhase wrap16 wrap32 u16
  simp only []
  split <;> omega

theorem cosIndex_six (p : Int) (hp0 : 0 ≤ p) (hp1 : p < 32768) : cosIndex 6 p = p / 64 := by
  unfold cosIndex wrap32 toU32
  norm_num
  omega

theorem cosFract_six (p : Int) (hp0 : 0 ≤ p) (hp1 : p < 32768) :
    cosFract 6 p (cosIndex 6 p) = (p % 64) * 512 := by
  rw [cosIndex_six p hp0 hp1]
  unfold cosFract wrap16 wrap32
  norm_num
  omega

theorem tableRead_of_lt (tbl : List Int) (i : Int) (h0 : 0 ≤ i) (h1 : i < tbl.length) :
    tableRead tbl i = some (wrap16 (tbl.getD i.toNat 0)) := by
  unfold tableRead
  have hlt : i.toNat < tbl.length := by omega
  rw [if_neg (by omega), List.getElem?_eq_getElem hlt, List.getD_eq_getElem _ _ hlt]
  rfl

/-- C3: with shift 6 and a 513-entry table, the base index is in `[0, 511]` for
every input, both table reads succeed, index 511 is reached at `x = 0x5FC0`,
and there the result interpolates between entries 511 and 512. -/
theorem cos_table_reads_in_bounds (sinTable_q16 : List Int) (hlen : sinTable_q16.length = 513)
    (x : Int) :
    0 ≤ cosIndex 6 (cosPhase x) ∧ cosIndex 6 (cosPhase x) ≤ 511 ∧
    (tableRead sinTable_q16 (cosIndex 6 (cosPhase x))).isSome = true ∧
    (tableRead sinTable_q16 (wrap32 (cosIndex 6 (cosPhase x) + 1))).isSome = true ∧
    (plp_cos_q16s_rv32im 6 sinTable_q16 x).isSome = true ∧
    cosIndex 6 (cosPhase 0x5FC0) = 511 ∧
    plp_cos_q16s_rv32im 6 sinTable_q16 0x5FC0 =
      some (cosInterp (cosFract 6 (cosPhase 0x5FC0) 511)
        (wrap16 (sinTable_q16.getD 511 0)) (wrap16 (sinTable_q16.getD 512 0))) := by
  have hp := cosPhase_eq x
  have hp0 : 0 ≤ cosPhase x := by omega
  have hp1 : cosPhase x < 32768 := by omega
  have hi := cosIndex_six _ hp0 hp1
  have hi0 : 0 ≤ cosIndex 6 (cosPhase x) := by omega
  have hi1 : cosIndex 6 (cosPhase x) ≤ 511 := by omega
  have hw : wrap32 (cosIndex 6 (cosPhase x) + 1) = cosIndex 6 (cosPhase x) + 1 := by
    unfold wrap32; omega
  have ra := tableRead_of_lt sinTable_q16 (cosIndex 6 (cosPhase x)) hi0 (by omega)
  have rb := tableRead_of_lt sinTable_q16 (cosIndex 6 (cosPhase x) + 1) (by omega) (by omega)
  have hmax : cosIndex 6 (cosPhase 0x5FC0) = 511 := by decide
  refine ⟨hi0, hi1, by simp [ra], by simp [hw, rb], ?_, hmax, ?_⟩
  · unfold plp_cos_q16s_rv32im
    simp [hw, ra, rb]
  · have ra' := tableRead_of_lt sinTable_q16 511 (by omega) (by omega)
    have rb' := tableRead_of_lt sinTable_q16 512 (by omega) (by omega)
    have hw' : wrap32 (511 + 1) = 512 := by decide
    unfold plp_cos_q16s_rv32im
    simp only [hmax, hw', ra', rb']
    rfl

theorem cos_table_reads_in_bounds_witness :
    0 ≤ cosIndex 6 (cosPhase (-1)) ∧ cosIndex 6 (cosPhase (-1)) ≤ 511 ∧
    (tableRead (List.replicate 513 7) (cosIndex 6 (cosPhase (-1)))).isSome = true ∧
    (tableRead (List.replicate 513 7) (wrap32 (cosIndex 6 (cosPhase (-1)) + 1))).isSome = true ∧
    (plp_cos_q16s_rv32im 6 (List.replicate 513 7) (-1)).isSome = true ∧
    cosIndex 6 (cosPhase 0x5FC0) = 511 ∧
    plp_cos_q16s_rv32im 6 (List.replicate 513 7) 0x5FC0 =
      some (cosInterp (cosFract 6 (cosPhase 0x5FC0) 511)
        (wrap16 ((List.replicate 513 7).getD 511 0)) (wrap16 ((List.replicate 513 7).getD 512 0))) :=
  cos_table_reads_in_bounds (List.replicate 513 7) (List.length_replicate 513 7) (-1)

/-- C4: periodicity. For every input and every table, the cosine of `x` and of
`x + 0x8000` wrapped to 16 bits coincide. -/
theorem cos_periodic (FAST_MATH_Q16_SHIFT : Nat) (sinTable_q16 : List Int) (x : Int) :
    plp_cos_q16s_rv32im FAST_MATH_Q16_SHIFT sinTable_q16 x =
      plp_cos_q16s_rv32im FAST_MATH_Q16_SHIFT sinTable_q16 (wrap16 (x + 0x8000)) := by
  have h : cosPhase (wrap16 (x + 0x8000)) = cosPhase x := by
    rw [cosPhase_eq, cosPhase_eq]; unfold wrap16; omega
  unfold plp_cos_q16s_rv32im
  rw [h]

/-- C5: phase-shift identity. For every input and every table, the cosine of
`x` equals the table sine evaluator at `x + 0x2000` wrapped to 16 bits. -/
theorem cos_eq_sin_quarter_shift (FAST_MATH_Q16_SHIFT : Nat) (sinTable_q16 : List Int) (x : Int) :
    plp_cos_q16s_rv32im FAST_MATH_Q16_SHIFT sinTable_q16 x =
      plp_sin_q16s_rv32im FAST_MATH_Q16_SHIFT sinTable_q16 (wrap16 (x + 0x2000)) := by
  have h1 : wrap16 (wrap16 (x + 0x2000)) = wrap16 (wrap32 (u16 x + 0x2000)) := by
    unfold wrap16 wrap32 u16; omega
  unfold plp_cos_q16s_rv32im plp_sin_q16s_rv32im cosPhase cosIndex cosFract cosInterp cosVal2 cosVal1
  simp only [h1]

/-! ## The reference kernel: concrete scenario and frame -/

/-- C6: the concrete scenario `A = [[1+2i, 3+0i]]`, `B = [[1+0i],[0+1i]]`
(`M=1, N=2, O=1`) makes the kernel write `C = [1, 5]`, whatever the output
buffer held before. -/
theorem mat_mult_cmplx_scenario (c : List Int) :
    (plp_mat_mult_cmplx_i16s_rv32im 0 1 1 2 1 2 (mkHeap [1, 2, 3, 0] [1, 0, 0, 1] c)).read32 2 2
      = [1, 5] ∧
    (plp_mat_mult_cmplx_i16s_rv32im 0 1 1 2 1 2 (mkHeap [1, 2, 3, 0] [1, 0, 0, 1] c)).log
      = [(2, 0, 1), (2, 1, 5)] :=
  ⟨rfl, rfl⟩

theorem kernelStores_slot_mem (mem : Nat → Nat → Int) (pSrcA pSrcB M N O pDstC : Nat)
    (hC : 2 * (M * O) ≤ 4294967296) (i : Nat) (hi : i < 2 * (M * O)) :
    ∃ v, (pDstC, i, v) ∈ kernelStores mem pSrcA pSrcB M N O pDstC := by
  have hk := kernelStores_keys mem pSrcA pSrcB M N O pDstC hC
  have hmem : (pDstC, i) ∈ (kernelStores mem pSrcA pSrcB M N O pDstC).map StoreEv.key := by
    rw [hk]; exact List.mem_map.2 ⟨i, List.mem_range.2 hi, rfl⟩
  obtain ⟨⟨p, j, v⟩, he, hkey⟩ := List.mem_map.1 hmem
  simp only [StoreEv.key, Prod.mk.injEq] at hkey
  obtain ⟨rfl, rfl⟩ := hkey
  exact ⟨v, he⟩

theorem kernelStores_key_lt (mem : Nat → Nat → Int) (pSrcA pSrcB M N O pDstC : Nat)
    (hC : 2 * (M * O) ≤ 4294967296) (e : StoreEv)
    (he : e ∈ kernelStores mem pSrcA pSrcB M N O pDstC) : e.1 = pDstC ∧ e.2.1 < 2 * (M * O) := by
  have hk := kernelStores_keys mem pSrcA pSrcB M N O pDstC hC
  have hmem : StoreEv.key e ∈ (kernelStores mem pSrcA pSrcB M N O pDstC).map StoreEv.key :=
    List.mem_map.2 ⟨e, he, rfl⟩
  rw [hk] at hmem
  obtain ⟨i, hi, hkey⟩ := List.mem_map.1 hmem
  simp only [StoreEv.key, Prod.mk.injEq] at hkey
  exact ⟨hkey.1.symm, by rw [← hkey.2]; exact List.mem_range.1 hi⟩

/-- C7: for an output buffer addressable with 32-bit indices
(`2*M*O ≤ 2^32`), the kernel stores to the slots `0 .. 2*M*O-1` of `pDstC`,
each exactly once and in this order, so that their final content depends only
on the inputs; every slot from `2*M*O` on, every other `int32_t` object and the
`int16_t` inputs are left unchanged. -/
theorem mat_mult_cmplx_frame (pSrcA pSrcB M N O pDstC : Nat) (h : Heap)
    (hC : 2 * (M * O) ≤ 4294967296) :
    (plp_mat_mult_cmplx_i16s_rv32im pSrcA pSrcB M N O pDstC h).log.map StoreEv.key
      = h.log.map StoreEv.key ++ (List.range (2 * (M * O))).map (fun i => (pDstC, i)) ∧
    (∀ g : Heap, g.i16 = h.i16 → ∀ i, i < 2 * (M * O) →
      (plp_mat_mult_cmplx_i16s_rv32im pSrcA pSrcB M N O pDstC g).i32 pDstC i
        = (plp_mat_mult_cmplx_i16s_rv32im pSrcA pSrcB M N O pDstC h).i32 pDstC i) ∧
    (∀ i, 2 * (M * O) ≤ i →
      (plp_mat_mult_cmplx_i16s_rv32im pSrcA pSrcB M N O pDstC h).i32 pDstC i = h.i32 pDstC i) ∧
    (∀ q, q ≠ pDstC →
      (plp_mat_mult_cmplx_i16s_rv32im pSrcA pSrcB M N O pDstC h).i32 q = h.i32 q) ∧
    (plp_mat_mult_cmplx_i16s_rv32im pSrcA pSrcB M N O pDstC h).i16 = h.i16 := by
  have hnd := kernelStores_keys_nodup h.i16 pSrcA pSrcB M N O pDstC hC
  refine ⟨?_, ?_, ?_, ?_, ?_⟩
  · rw [kernel_eq, storeAll_log, List.map_append, kernelStores_keys _ _ _ _ _ _ _ hC]
  · intro g hg i hi
    obtain ⟨v, hv⟩ := kernelStores_slot_mem h.i16 pSrcA pSrcB M N O pDstC hC i hi
    rw [kernel_eq, kernel_eq, hg, storeAll_i32_of_mem g _ _ _ v hnd hv,
      storeAll_i32_of_mem h _ _ _ v hnd hv]
  · intro i hi
    rw [kernel_eq]
    refine storeAll_i32_of_not_mem h _ _ _ (fun e he hk => ?_)
    have hlt := (kernelStores_key_lt h.i16 pSrcA pSrcB M N O pDstC hC e he).2
    simp only [Prod.mk.injEq] at hk
    omega
  · intro q hq
    funext j
    rw [kernel_eq]
    refine storeAll_i32_of_not_mem h _ _ _ (fun e he hk => ?_)
    have hp := (kernelStores_key_lt h.i16 pSrcA pSrcB M N O pDstC hC e he).1
    simp only [Prod.mk.injEq] at hk
    exact hq (by rw [← hk.1, hp])
  · rw [kernel_eq, storeAll_i16]

theorem mat_mult_cmplx_frame_witness :
    2 * (1 * 1) ≤ 4294967296 ∧
    (plp_mat_mult_cmplx_i16s_rv32im 0 1 1 2 1 2
        (mkHeap [1, 2, 3, 0] [1, 0, 0, 1] [7, 8, 9])).log.map StoreEv.key = [(2, 0), (2, 1)] ∧
    (plp_mat_mult_cmplx_i16s_rv32im 0 1 1 2 1 2
        (mkHeap [1, 2, 3, 0] [1, 0, 0, 1] [7, 8, 9])).i32 2 2 = 9 ∧
    (plp_mat_mult_cmplx_i16s_rv32im 0 1 1 2 1 2
        (mkHeap [1, 2, 3, 0] [1, 0, 0, 1] [7, 8, 9])).i16
      = (mkHeap [1, 2, 3, 0] [1, 0, 0, 1] [7, 8, 9]).i16 :=
  have h := mat_mult_cmplx_frame 0 1 1 2 1 2 (mkHeap [1, 2, 3, 0] [1, 0, 0, 1] [7, 8, 9])
    (by decide)
  ⟨by decide, h.1, h.2.2.1 2 (by decide), h.2.2.2.2⟩

/-! ## The fork-join layer -/

theorem workerStart_zero (M nPE : Nat) : workerStart M nPE 0 = 0 := rfl

theorem workerStart_succ (M nPE k : Nat) :
    workerStart M nPE (k + 1) = workerStart M nPE k + workerRows M nPE k := by
  unfold workerStart
  rw [List.range_succ, List.map_append, List.sum_append]
  simp

theorem workerStart_eq (M nPE k : Nat) :
    workerStart M nPE k = k * (M / nPE) + min k (M % nPE) := by
  induction k with
  | zero => simp [workerStart_zero]
  | succ k ih =>
    rw [workerStart_succ, ih, workerRows, Nat.succ_mul]
    split <;> omega

theorem workerStart_total (M nPE : Nat) (hn : 1 ≤ nPE) : workerStart M nPE nPE = M := by
  rw [workerStart_eq]
  have h1 : M % nPE < nPE := Nat.mod_lt _ hn
  have h2 := Nat.div_add_mod M nPE
  rw [Nat.min_eq_right (Nat.le_of_lt h1)]
  linarith

theorem workerStart_mono (M nPE a b : Nat) (hab : a ≤ b) :
    workerStart M nPE a ≤ workerStart M nPE b := by
  induction b, hab using Nat.le_induction with
  | base => exact Nat.le_refl _
  | succ b _ ih => rw [workerStart_succ]; omega

theorem workerStart_block_le (M nPE k : Nat) (hn : 1 ≤ nPE) (hk : k < nPE) :
    workerStart M nPE k + workerRows M nPE k ≤ M := by
  have h := workerStart_mono M nPE (k + 1) nPE hk
  rw [workerStart_total M nPE hn, workerStart_succ] at h
  exact h

theorem exists_block (M nPE : Nat) (n m : Nat) (hm : m < workerStart M nPE n) :
    ∃ k, k < n ∧ workerStart M nPE k ≤ m ∧ m < workerStart M nPE k + workerRows M nPE k := by
  induction n with
  | zero => simp [workerStart_zero] at hm
  | succ n ih =>
    by_cases h : m < workerStart M nPE n
    · obtain ⟨k, hk, hk'⟩ := ih h
      exact ⟨k, Nat.lt_succ_of_lt hk, hk'⟩
    · rw [workerStart_succ] at hm
      exact ⟨n, Nat.lt_succ_self n, Nat.le_of_not_lt h, hm⟩

theorem block_unique (M nPE j k m : Nat)
    (hj1 : workerStart M nPE j ≤ m) (hj2 : m < workerStart M nPE j + workerRows M nPE j)
    (hk1 : workerStart M nPE k ≤ m) (hk2 : m < workerStart M nPE k + workerRows M nPE k) :
    j = k := by
  rw [← workerStart_succ] at hj2 hk2
  rcases Nat.lt_trichotomy j k with h | h | h
  · have := workerStart_mono M nPE (j + 1) k h; omega
  · exact h
  · have := workerStart_mono M nPE (k + 1) j h; omega

theorem flatMap_blocks (M nPE K : Nat) :
    (List.range K).flatMap (fun k => List.range' (workerStart M nPE k) (workerRows M nPE k))
      = List.range (workerStart M nPE K) := by
  induction K with
  | zero => simp [workerStart_zero]
  | succ K ih =>
    rw [List.range_succ, List.flatMap_append, ih, workerStart_succ, List.range_eq_range',
      List.range_eq_range', Nat.add_comm (workerStart M nPE K),
      ← List.range'_append 0 (workerStart M nPE K) (workerRows M nPE K) 1]
    simp

theorem flatMap_rows_range' (O s r : Nat) :
    (List.range' s r).flatMap (fun m => List.range' (2 * (m * O)) (2 * O))
      = List.range' (2 * (s * O)) (2 * (r * O)) := by
  induction r generalizing s with
  | zero => simp
  | succ r ih =>
    rw [List.range'_succ, List.flatMap_cons, ih]
    have h1 : 2 * ((s + 1) * O) = 2 * (s * O) + 1 * (2 * O) := by ring
    have h2 : 2 * ((r + 1) * O) = 2 * (r * O) + 2 * O := by ring
    rw [h1, h2, List.range'_append]

theorem worker_eq (core_id : Nat) (args : plp_mat_mult_cmplx_instance_i16) (h : Heap) :
    plp_mat_mult_trans_cmplx_i16p_xpulpv2 core_id args h =
      h.storeAll (workerStores h.i16 args core_id) :=
  foldl_eq_storeAll _ (fun mem => rowStores mem args.pSrcA args.pSrcB args.N args.O args.pDstC)
    (rowBody_eq args.pSrcA args.pSrcB args.N args.O args.pDstC) _ h

theorem teamRun_eq (sched : List Nat) (entry : WorkerFn)
    (args : plp_mat_mult_cmplx_instance_i16) (h : Heap) :
    teamRun sched entry args h = h.storeAll (sched.flatMap (workerStores h.i16 args)) := by
  cases entry
  exact foldl_eq_storeAll _ (fun mem => workerStores mem args)
    (fun g k => worker_eq k args g) sched h

theorem team_stores_eq_kernelStores (mem : Nat → Nat → Int)
    (args : plp_mat_mult_cmplx_instance_i16)
    (hn : workerStart args.M args.nPE args.nPE = args.M) :
    (List.range args.nPE).flatMap (workerStores mem args) =
      kernelStores mem args.pSrcA args.pSrcB args.M args.N args.O args.pDstC := by
  unfold workerStores kernelStores
  rw [← List.flatMap_assoc, flatMap_blocks, hn]

theorem storeAll_i32_perm (h : Heap) (l₁ l₂ : List StoreEv) (hp : l₁.Perm l₂)
    (hnd : (l₂.map StoreEv.key).Nodup) : (h.storeAll l₁).i32 = (h.storeAll l₂).i32 := by
  have hnd1 : (l₁.map StoreEv.key).Nodup := ((hp.map StoreEv.key).nodup_iff).2 hnd
  funext q j
  by_cases hex : ∃ e ∈ l₂, StoreEv.key e = (q, j)
  · obtain ⟨⟨p, i, v⟩, he, hk⟩ := hex
    simp only [StoreEv.key, Prod.mk.injEq] at hk
    obtain ⟨rfl, rfl⟩ := hk
    rw [storeAll_i32_of_mem h l₂ p i v hnd he,
      storeAll_i32_of_mem h l₁ p i v hnd1 (hp.mem_iff.2 he)]
  · have hno : ∀ e ∈ l₂, (e.1, e.2.1) ≠ (q, j) := fun e he hk => hex ⟨e, he, hk⟩
    rw [storeAll_i32_of_not_mem h l₂ q j hno,
      storeAll_i32_of_not_mem h l₁ q j (fun e he => hno e (hp.mem_iff.1 he))]

/-- C8: called from the cluster side with `nPE` in `{1, 2, 3, M, M+1}`, the
parallel entry point (spec-modelled fork-join and worker) leaves the memory
exactly as the reference kernel does for the same arguments; when the output
indices do not wrap this holds for every order in which the workers run.  With
`nPE = 1` the single worker has all `M` rows, and with `nPE > M` the workers
`M, M+1, ...` have no rows. -/
theorem parallel_eq_reference (ARCHI_FC_CID pSrcA pSrcB M N O nPE pDstC : Nat) (w : World)
    (hcl : w.cluster_id ≠ ARCHI_FC_CID) (hn : nPE ∈ [1, 2, 3, M, M + 1]) :
    (plp_mat_mult_trans_cmplx_i16_parallel ARCHI_FC_CID pSrcA pSrcB M N O nPE pDstC w).heap
      = plp_mat_mult_cmplx_i16s_rv32im pSrcA pSrcB M N O pDstC w.heap ∧
    (2 * (M * O) ≤ 4294967296 → ∀ sched : List Nat, sched.Perm (List.range nPE) →
      (teamRun sched WorkerFn.plp_mat_mult_trans_cmplx_i16p_xpulpv2
          { pSrcA := pSrcA, pSrcB := pSrcB, M := M, N := N, O := O, nPE := nPE, pDstC := pDstC }
          w.heap).i32
        = (plp_mat_mult_cmplx_i16s_rv32im pSrcA pSrcB M N O pDstC w.heap).i32 ∧
      (teamRun sched WorkerFn.plp_mat_mult_trans_cmplx_i16p_xpulpv2
          { pSrcA := pSrcA, pSrcB := pSrcB, M := M, N := N, O := O, nPE := nPE, pDstC := pDstC }
          w.heap).i16
        = (plp_mat_mult_cmplx_i16s_rv32im pSrcA pSrcB M N O pDstC w.heap).i16) ∧
    (nPE = 1 → workerStart M nPE 0 = 0 ∧ workerRows M nPE 0 = M) ∧
    (M < nPE → ∀ k, M ≤ k → workerRows M nPE k = 0) := by
  have htot : workerStart M nPE nPE = M := by
    by_cases h0 : 1 ≤ nPE
    · exact workerStart_total M nPE h0
    · have hz : nPE = 0 := by omega
      simp only [List.mem_cons, List.mem_singleton, List.not_mem_nil, or_false] at hn
      have hM : M = 0 := by omega
      rw [hz, hM]; rfl
  have hst := team_stores_eq_kernelStores w.heap.i16
    { pSrcA := pSrcA, pSrcB := pSrcB, M := M, N := N, O := O, nPE := nPE, pDstC := pDstC } htot
  simp only at hst
  refine ⟨?_, ?_, ?_, ?_⟩
  · unfold plp_mat_mult_trans_cmplx_i16_parallel
    rw [if_neg hcl]
    simp only [rt_team_fork]
    rw [teamRun_eq, kernel_eq, hst]
  · intro hC sched hp
    rw [teamRun_eq, kernel_eq, storeAll_i16, storeAll_i16, ← hst]
    refine ⟨storeAll_i32_perm _ _ _ (hp.flatMap_right _) ?_, rfl⟩
    rw [hst]
    exact kernelStores_keys_nodup _ _ _ _ _ _ _ hC
  · intro h1
    subst h1
    refine ⟨rfl, ?_⟩
    simp [workerRows, Nat.mod_one]
  · intro hlt k hk
    unfold workerRows
    rw [Nat.div_eq_of_lt hlt, Nat.mod_eq_of_lt hlt, if_neg (by omega)]

theorem parallel_eq_reference_witness :
    (0 ≠ 32 ∧ 2 ∈ [1, 2, 3, 3, 3 + 1]) ∧
    (plp_mat_mult_trans_cmplx_i16_parallel 32 0 1 3 1 1 2 2
        (mkWorld 0 (mkHeap [1, 2, 3, 4, 5, 6] [1, 1] [7, 7, 7, 7, 7, 7]))).heap
      = plp_mat_mult_cmplx_i16s_rv32im 0 1 3 1 1 2
          (mkHeap [1, 2, 3, 4, 5, 6] [1, 1] [7, 7, 7, 7, 7, 7]) :=
  ⟨⟨by decide, by decide⟩,
    (parallel_eq_reference 32 0 1 3 1 1 2 2
      (mkWorld 0 (mkHeap [1, 2, 3, 4, 5, 6] [1, 1] [7, 7, 7, 7, 7, 7]))
      (by decide) (by decide)).1⟩

theorem newStores_storeAll (h : Heap) (l : List StoreEv) : newStores h (h.storeAll l) = l := by
  unfold newStores
  rw [storeAll_log, List.drop_left]

theorem workerStores_keys (mem : Nat → Nat → Int) (pSrcA pSrcB M N O nPE pDstC k : Nat)
    (hn : 1 ≤ nPE) (hk : k < nPE) (hC : 2 * (M * O) ≤ 4294967296) :
    (workerStores mem
        { pSrcA := pSrcA, pSrcB := pSrcB, M := M, N := N, O := O, nPE := nPE, pDstC := pDstC }
        k).map StoreEv.key
      = (List.range' (2 * (workerStart M nPE k * O)) (2 * (workerRows M nPE k * O))).map
          (fun i => (pDstC, i)) := by
  unfold workerStores
  simp only
  rw [← flatMap_rows_range', List.map_flatMap, List.map_flatMap]
  refine List.flatMap_congr (fun m hm => ?_)
  have hm' := (List.mem_range'_1.1 hm).2
  have hle := workerStart_block_le M nPE k hn hk
  exact rowStores_keys mem pSrcA pSrcB M N O pDstC m (by omega) hC

theorem block_slots_disjoint (M nPE O pDstC j k : Nat) (hjk : j < k) :
    List.Disjoint
      ((List.range' (2 * (workerStart M nPE j * O)) (2 * (workerRows M nPE j * O))).map
        (fun i => (pDstC, i)))
      ((List.range' (2 * (workerStart M nPE k * O)) (2 * (workerRows M nPE k * O))).map
        (fun i => (pDstC, i))) := by
  intro x hx1 hx2
  obtain ⟨i1, hi1, rfl⟩ := List.mem_map.1 hx1
  obtain ⟨i2, hi2, heq⟩ := List.mem_map.1 hx2
  simp only [Prod.mk.injEq, true_and] at heq
  subst heq
  have h1 := (List.mem_range'_1.1 hi1).2
  have h2 := (List.mem_range'_1.1 hi2).1
  have hmono := workerStart_mono M nPE (j + 1) k hjk
  rw [workerStart_succ] at hmono
  have hmul := Nat.mul_le_mul_right O hmono
  rw [Nat.add_mul] at hmul
  omega

/-- C9: for `nPE ≥ 1` the row blocks of the spec-modelled workers are
contiguous, start at row 0 and end at row `M`, so that every row `m < M` lies
in the block of exactly one worker; the `M mod nPE` lowest-indexed workers have
`M / nPE + 1` rows and the others `M / nPE`.  When the output indices do not
wrap, worker `k` stores exactly to the slots of its own rows, the slot sets of
two different workers are disjoint, and the team as a whole stores to every
slot `0 .. 2*M*O-1` exactly once. -/
theorem worker_rows_partition (pSrcA pSrcB M N O nPE pDstC : Nat) (h : Heap) (hn : 1 ≤ nPE) :
    (workerStart M nPE 0 = 0 ∧ workerStart M nPE nPE = M ∧
      ∀ k, workerStart M nPE (k + 1) = workerStart M nPE k + workerRows M nPE k) ∧
    (∀ m, m < M → ∃ k, k < nPE ∧
      (workerStart M nPE k ≤ m ∧ m < workerStart M nPE k + workerRows M nPE k) ∧
      ∀ j, workerStart M nPE j ≤ m → m < workerStart M nPE j + workerRows M nPE j → j = k) ∧
    (∀ k, k < nPE → workerStart M nPE k + workerRows M nPE k ≤ M) ∧
    (∀ k, k < nPE → workerRows M nPE k = if k < M % nPE then M / nPE + 1 else M / nPE) ∧
    (2 * (M * O) ≤ 4294967296 →
      (∀ k, k < nPE →
        (newStores h (plp_mat_mult_trans_cmplx_i16p_xpulpv2 k
            { pSrcA := pSrcA, pSrcB := pSrcB, M := M, N := N, O := O, nPE := nPE,
              pDstC := pDstC } h)).map StoreEv.key
          = (List.range' (2 * (workerStart M nPE k * O)) (2 * (workerRows M nPE k * O))).map
              (fun i => (pDstC, i))) ∧
      (∀ j k, j < nPE → k < nPE → j ≠ k →
        List.Disjoint
          ((newStores h (plp_mat_mult_trans_cmplx_i16p_xpulpv2 j
            { pSrcA := pSrcA, pSrcB := pSrcB, M := M, N := N, O := O, nPE := nPE,
              pDstC := pDstC } h)).map StoreEv.key)
          ((newStores h (plp_mat_mult_trans_cmplx_i16p_xpulpv2 k
            { pSrcA := pSrcA, pSrcB := pSrcB, M := M, N := N, O := O, nPE := nPE,
              pDstC := pDstC } h)).map StoreEv.key)) ∧
      (newStores h (teamRun (List.range nPE) WorkerFn.plp_mat_mult_trans_cmplx_i16p_xpulpv2
            { pSrcA := pSrcA, pSrcB := pSrcB, M := M, N := N, O := O, nPE := nPE,
              pDstC := pDstC } h)).map StoreEv.key
        = (List.range (2 * (M * O))).map (fun i => (pDstC, i))) := by
  have htot := workerStart_total M nPE hn
  refine ⟨⟨rfl, htot, workerStart_succ M nPE⟩, ?_, ?_, ?_, ?_⟩
  · intro m hm
    obtain ⟨k, hk, hk1, hk2⟩ := exists_block M nPE nPE m (by rw [htot]; exact hm)
    exact ⟨k, hk, ⟨hk1, hk2⟩, fun j hj1 hj2 => block_unique M nPE j k m hj1 hj2 hk1 hk2⟩
  · exact fun k hk => workerStart_block_le M nPE k hn hk
  · intro k _
    unfold workerRows
    split <;> rfl
  · intro hC
    have hkeys : ∀ k, k < nPE →
        (newStores h (plp_mat_mult_trans_cmplx_i16p_xpulpv2 k
            { pSrcA := pSrcA, pSrcB := pSrcB, M := M, N := N, O := O, nPE := nPE,
              pDstC := pDstC } h)).map StoreEv.key
          = (List.range' (2 * (workerStart M nPE k * O)) (2 * (workerRows M nPE k * O))).map
              (fun i => (pDstC, i)) := by
      intro k hk
      rw [worker_eq, newStores_storeAll]
      exact workerStores_keys h.i16 pSrcA pSrcB M N O nPE pDstC k hn hk hC
    refine ⟨hkeys, ?_, ?_⟩
    · intro j k hj hk hjk
      rw [hkeys j hj, hkeys k hk]
      rcases Nat.lt_or_gt_of_ne hjk with hlt | hgt
      · exact block_slots_disjoint M nPE O pDstC j k hlt
      · exact (block_slots_disjoint M nPE O pDstC k j hgt).symm
    · rw [teamRun_eq, newStores_storeAll]
      have hst := team_stores_eq_kernelStores h.i16
        { pSrcA := pSrcA, pSrcB := pSrcB, M := M, N := N, O := O, nPE := nPE, pDstC := pDstC }
        htot
      rw [hst]
      exact kernelStores_keys _ _ _ _ _ _ _ hC

theorem worker_rows_partition_witness :
    1 ≤ 4 ∧
    (workerStart 7 4 0 = 0 ∧ workerStart 7 4 4 = 7) ∧
    (workerStart 7 4 2 + workerRows 7 4 2 ≤ 7) ∧
    (workerRows 7 4 2 = if 2 < 7 % 4 then 7 / 4 + 1 else 7 / 4) ∧
    (workerRows 7 4 3 = if 3 < 7 % 4 then 7 / 4 + 1 else 7 / 4) ∧
    (newStores (mkHeap [] [] []) (plp_mat_mult_trans_cmplx_i16p_xpulpv2 3
        { pSrcA := 0, pSrcB := 1, M := 7, N := 1, O := 1, nPE := 4, pDstC := 2 }
        (mkHeap [] [] []))).map StoreEv.key
      = (List.range' (2 * (workerStart 7 4 3 * 1)) (2 * (workerRows 7 4 3 * 1))).map
          (fun i => (2, i)) :=
  have h := worker_rows_partition 0 1 7 1 1 4 2 (mkHeap [] [] []) (by decide)
  ⟨by decide, ⟨h.1.1, h.1.2.1⟩, h.2.2.1 2 (by decide), h.2.2.2.1 2 (by decide),
    h.2.2.2.1 3 (by decide), (h.2.2.2.2 (by decide)).1 3 (by decide)⟩

/-! ## The cosine: interpolation arithmetic -/

theorem cosVal1_eq (k a : Int) (hk0 : 0 ≤ k) (hk1 : k ≤ 63) (ha : IsInt16 a) :
    IsInt32 ((0x8000 - k * 512) * a) ∧
    cosVal1 (k * 512) a = (0x8000 - k * 512) * a / 65536 ∧
    -(64 - k) * 256 ≤ cosVal1 (k * 512) a ∧ cosVal1 (k * 512) a ≤ (64 - k) * 256 - 1 := by
  unfold IsInt16 at ha
  have hw : wrap32 (0x8000 - k * 512) = 0x8000 - k * 512 := by unfold wrap32; omega
  have hP1 : (0x8000 - k * 512) * (-32768) ≤ (0x8000 - k * 512) * a :=
    Int.mul_le_mul_of_nonneg_left ha.1 (by omega)
  have hP2 : (0x8000 - k * 512) * a ≤ (0x8000 - k * 512) * 32767 :=
    Int.mul_le_mul_of_nonneg_left ha.2 (by omega)
  unfold cosVal1 asr16
  rw [hw]
  unfold IsInt32
  generalize (0x8000 - k * 512) * a = P at hP1 hP2 ⊢
  unfold wrap16 wrap32
  omega

theorem cosVal2_eq (k a b : Int) (hk0 : 0 ≤ k) (hk1 : k ≤ 63) (ha : IsInt16 a) (hb : IsInt16 b) :
    IsInt32 (cosVal1 (k * 512) a * 65536) ∧ IsInt32 (k * 512 * b) ∧
    IsInt32 (cosVal1 (k * 512) a * 65536 + k * 512 * b) ∧
    cosVal2 (k * 512) a b = (0x8000 - k * 512) * a / 65536 + k * 512 * b / 65536 ∧
    -16384 ≤ cosVal2 (k * 512) a b ∧ cosVal2 (k * 512) a b ≤ 16383 := by
  obtain ⟨_, h1, h2, h3⟩ := cosVal1_eq k a hk0 hk1 ha
  unfold IsInt16 at hb
  have hQ1 : (k * 512) * (-32768) ≤ (k * 512) * b :=
    Int.mul_le_mul_of_nonneg_left hb.1 (by omega)
  have hQ2 : (k * 512) * b ≤ (k * 512) * 32767 :=
    Int.mul_le_mul_of_nonneg_left hb.2 (by omega)
  unfold cosVal2 asr16
  rw [← h1]
  unfold IsInt32
  generalize cosVal1 (k * 512) a = c at h2 h3 ⊢
  generalize (k * 512) * b = Q at hQ1 hQ2 ⊢
  unfold wrap16 wrap32
  omega

/-- C10: with shift 6, for every input `x` and all 16-bit table entries `a`,
`b`, no 32-bit intermediate of the interpolation wraps, `cosVal` stays in
`[-16384, 16383]`, and the returned value is exactly
`2 * (floor((0x8000 - fract) * a / 65536) + floor(fract * b / 65536))`, an even
number in `[-32768, 32766]`; this is the value the function returns whenever
the two table reads yield `a` and `b`. -/
theorem cos_interp_exact (sinTable_q16 : List Int) (x fract a b : Int)
    (hf : fract = cosFract 6 (cosPhase x) (cosIndex 6 (cosPhase x)))
    (ha : IsInt16 a) (hb : IsInt16 b) :
    IsInt32 ((0x8000 - fract) * a) ∧ IsInt32 (cosVal1 fract a * 65536) ∧
    IsInt32 (fract * b) ∧ IsInt32 (cosVal1 fract a * 65536 + fract * b) ∧
    (-16384 ≤ cosVal1 fract a ∧ cosVal1 fract a ≤ 16383) ∧
    (-16384 ≤ cosVal2 fract a b ∧ cosVal2 fract a b ≤ 16383) ∧
    cosInterp fract a b = 2 * ((0x8000 - fract) * a / 65536 + fract * b / 65536) ∧
    (-32768 ≤ cosInterp fract a b ∧ cosInterp fract a b ≤ 32766) ∧
    cosInterp fract a b % 2 = 0 ∧
    (tableRead sinTable_q16 (cosIndex 6 (cosPhase x)) = some a →
      tableRead sinTable_q16 (wrap32 (cosIndex 6 (cosPhase x) + 1)) = some b →
      plp_cos_q16s_rv32im 6 sinTable_q16 x =
        some (2 * ((0x8000 - fract) * a / 65536 + fract * b / 65536))) := by
  have hp := cosPhase_eq x
  have hp0 : 0 ≤ cosPhase x := by omega
  have hp1 : cosPhase x < 32768 := by omega
  rw [cosFract_six _ hp0 hp1] at hf
  have hk0 : 0 ≤ cosPhase x % 64 := by omega
  have hk1 : cosPhase x % 64 ≤ 63 := by omega
  obtain ⟨c1, c2, c3, c4⟩ := cosVal1_eq _ a hk0 hk1 ha
  obtain ⟨d1, d2, d3, d4, d5, d6⟩ := cosVal2_eq _ a b hk0 hk1 ha hb
  rw [← hf] at c1 c2 c3 c4 d1 d2 d3 d4 d5 d6
  have hI : cosInterp fract a b = 2 * ((0x8000 - fract) * a / 65536 + fract * b / 65536) := by
    unfold cosInterp
    rw [← d4]
    unfold wrap16 wrap32
    omega
  refine ⟨c1, d1, d2, d3, ⟨by omega, by omega⟩, ⟨d5, d6⟩, hI, ?_, ?_, ?_⟩
  · rw [hI, ← d4]; omega
  · rw [hI]; omega
  · intro hra hrb
    unfold plp_cos_q16s_rv32im
    simp only [hra, hrb]
    rw [cosFract_six _ hp0 hp1, ← hf, hI]

theorem cos_interp_exact_witness :
    (32256 = cosFract 6 (cosPhase (-8129)) (cosIndex 6 (cosPhase (-8129))) ∧
      IsInt16 (-32768) ∧ IsInt16 32767) ∧
    IsInt32 ((0x8000 - 32256) * (-32768)) ∧ IsInt32 (cosVal1 32256 (-32768) * 65536) ∧
    IsInt32 (32256 * 32767) ∧ IsInt32 (cosVal1 32256 (-32768) * 65536 + 32256 * 32767) ∧
    cosInterp 32256 (-32768) 32767 =
      2 * ((0x8000 - 32256) * (-32768) / 65536 + 32256 * 32767 / 65536) ∧
    plp_cos_q16s_rv32im 6 ([-32768, 32767]) (-8129) =
      some (2 * ((0x8000 - 32256) * (-32768) / 65536 + 32256 * 32767 / 65536)) :=
  have h := cos_interp_exact ([-32768, 32767]) (-8129) 32256 (-32768) 32767
    (by decide) (by decide) (by decide)
  ⟨⟨by decide, by decide, by decide⟩, h.1, h.2.1, h.2.2.1, h.2.2.2.1, h.2.2.2.2.2.2.1,
    h.2.2.2.2.2.2.2.2.2 (by rfl) (by rfl)⟩

/-! ## The cosine: truncation, phase decomposition, grid points -/

theorem cosInterp_eq (k a b : Int) (hk0 : 0 ≤ k) (hk1 : k ≤ 63) (ha : IsInt16 a)
    (hb : IsInt16 b) :
    cosInterp (k * 512) a b
      = 2 * ((0x8000 - k * 512) * a / 65536 + k * 512 * b / 65536) := by
  obtain ⟨_, _, _, d4, d5, d6⟩ := cosVal2_eq k a b hk0 hk1 ha hb
  unfold cosInterp
  rw [← d4]
  unfold wrap16 wrap32
  omega

theorem cosFract_eq (x : Int) :
    ∃ k : Int, 0 ≤ k ∧ k ≤ 63 ∧ k = cosPhase x % 64 ∧
      cosFract 6 (cosPhase x) (cosIndex 6 (cosPhase x)) = k * 512 := by
  have hp := cosPhase_eq x
  have hp0 : 0 ≤ cosPhase x := by omega
  have hp1 : cosPhase x < 32768 := by omega
  exact ⟨cosPhase x % 64, by omega, by omega, rfl, cosFract_six _ hp0 hp1⟩

/-- C11: truncation bias. With shift 6, for every input `x` and all 16-bit
table entries `a`, `b`, the returned value `r` and the exact rational
interpolation `L = ((0x8000 - fract) * a + fract * b) / 0x8000` satisfy
`L - 4 < r ≤ L`, and hence `min a b - 4 < r ≤ max a b`. -/
theorem cos_interp_truncates_down (x fract a b : Int)
    (hf : fract = cosFract 6 (cosPhase x) (cosIndex 6 (cosPhase x)))
    (ha : IsInt16 a) (hb : IsInt16 b) :
    exactInterp fract a b - 4 < (cosInterp fract a b : ℚ) ∧
    (cosInterp fract a b : ℚ) ≤ exactInterp fract a b ∧
    min a b - 4 < cosInterp fract a b ∧ cosInterp fract a b ≤ max a b := by
  obtain ⟨k, hk0, hk1, _, hfk⟩ := cosFract_eq x
  rw [← hf] at hfk
  subst hfk
  have hI := cosInterp_eq k a b hk0 hk1 ha hb
  -- integer form of the two bounds
  have hlo : (cosInterp (k * 512) a b) * 32768 ≤ (0x8000 - k * 512) * a + k * 512 * b := by
    rw [hI]
    generalize (0x8000 - k * 512) * a = P
    generalize k * 512 * b = Q
    omega
  have hhi : (0x8000 - k * 512) * a + k * 512 * b < (cosInterp (k * 512) a b + 4) * 32768 := by
    rw [hI]
    generalize (0x8000 - k * 512) * a = P
    generalize k * 512 * b = Q
    omega
  have hmin : min a b * 32768 ≤ (0x8000 - k * 512) * a + k * 512 * b := by
    have h1 : (0x8000 - k * 512) * min a b ≤ (0x8000 - k * 512) * a :=
      Int.mul_le_mul_of_nonneg_left (min_le_left a b) (by omega)
    have h2 : (k * 512) * min a b ≤ (k * 512) * b :=
      Int.mul_le_mul_of_nonneg_left (min_le_right a b) (by omega)
    linarith
  have hmax : (0x8000 - k * 512) * a + k * 512 * b ≤ max a b * 32768 := by
    have h1 : (0x8000 - k * 512) * a ≤ (0x8000 - k * 512) * max a b :=
      Int.mul_le_mul_of_nonneg_left (le_max_left a b) (by omega)
    have h2 : (k * 512) * b ≤ (k * 512) * max a b :=
      Int.mul_le_mul_of_nonneg_left (le_max_right a b) (by omega)
    linarith
  refine ⟨?_, ?_, by omega, by omega⟩
  · unfold exactInterp
    rw [sub_lt_iff_lt_add, div_lt_iff₀ (by norm_num)]
    exact_mod_cast hhi
  · unfold exactInterp
    rw [le_div_iff₀ (by norm_num)]
    exact_mod_cast hlo

theorem cos_interp_truncates_down_witness :
    (32256 = cosFract 6 (cosPhase (-8129)) (cosIndex 6 (cosPhase (-8129))) ∧
      IsInt16 (-32768) ∧ IsInt16 32767) ∧
    exactInterp 32256 (-32768) 32767 - 4 < (cosInterp 32256 (-32768) 32767 : ℚ) ∧
    (cosInterp 32256 (-32768) 32767 : ℚ) ≤ exactInterp 32256 (-32768) 32767 ∧
    min (-32768) 32767 - 4 < cosInterp 32256 (-32768) 32767 ∧
    cosInterp 32256 (-32768) 32767 ≤ max (-32768) 32767 :=
  ⟨⟨by decide, by decide, by decide⟩,
    cos_interp_truncates_down (-8129) 32256 (-32768) 32767 (by decide) (by decide) (by decide)⟩

/-- C12: for every input `x` the phase after the quarter-cycle shift and the
negative re-wrap is `(x + 0x2000) mod 0x8000`, also with `x` taken as its
unsigned 16-bit pattern, and lies in `[0, 0x7FFF]`; with shift 6 the index is
`p div 64`, the fraction is `(p mod 64) * 512`, so `index * 64 + fract / 512 = p`
and `0 ≤ fract ≤ 0x7E00 < 0x8000`, the fraction fitting `int16_t` unwrapped. -/
theorem cos_phase_index_fract (x : Int) :
    cosPhase x = (u16 x + 0x2000) % 0x8000 ∧
    cosPhase x = (x + 0x2000) % 0x8000 ∧
    (0 ≤ cosPhase x ∧ cosPhase x ≤ 0x7FFF) ∧
    cosIndex 6 (cosPhase x) = cosPhase x / 64 ∧
    cosFract 6 (cosPhase x) (cosIndex 6 (cosPhase x)) = (cosPhase x % 64) * 512 ∧
    cosIndex 6 (cosPhase x) * 64
        + cosFract 6 (cosPhase x) (cosIndex 6 (cosPhase x)) / 512 = cosPhase x ∧
    (0 ≤ cosFract 6 (cosPhase x) (cosIndex 6 (cosPhase x)) ∧
      cosFract 6 (cosPhase x) (cosIndex 6 (cosPhase x)) ≤ 0x7E00) ∧
    (cosPhase x - cosIndex 6 (cosPhase x) * 2 ^ 6) * 512
      = cosFract 6 (cosPhase x) (cosIndex 6 (cosPhase x)) := by
  have hp := cosPhase_eq x
  have hp0 : 0 ≤ cosPhase x := by omega
  have hp1 : cosPhase x < 32768 := by omega
  have hi := cosIndex_six _ hp0 hp1
  have hf := cosFract_six _ hp0 hp1
  refine ⟨?_, ?_, ⟨hp0, by omega⟩, hi, hf, ?_, ⟨by omega, by omega⟩, ?_⟩
  · unfold u16; omega
  · omega
  · rw [hf, hi]; omega
  · rw [hf, hi]; omega

/-- C16: grid points lose the least significant bit. With shift 6, when the
phase `p` of `x` is a multiple of 64 and the table reads at `p / 64` and
`p / 64 + 1` yield `a` and `b`, the result is `2 * floor(a / 2)`, that is `a`
with its lowest bit cleared, whatever `b` is; in particular at `x = 0` the
index is 128 and a sample `0x7FFF` is returned as `0x7FFE`. -/
theorem cos_grid_point_clears_lsb (sinTable_q16 : List Int) (x a b : Int)
    (hp : ((x + 0x2000) % 0x8000) % 64 = 0)
    (hra : tableRead sinTable_q16 (((x + 0x2000) % 0x8000) / 64) = some a)
    (hrb : tableRead sinTable_q16 (((x + 0x2000) % 0x8000) / 64 + 1) = some b) :
    plp_cos_q16s_rv32im 6 sinTable_q16 x = some (2 * (a / 2)) ∧
    2 * (a / 2) = a - a % 2 ∧
    cosIndex 6 (cosPhase 0) = 128 ∧
    (x = 0 → a = 0x7FFF → plp_cos_q16s_rv32im 6 sinTable_q16 x = some 0x7FFE) := by
  have hph := cosPhase_eq x
  have hp0 : 0 ≤ cosPhase x := by omega
  have hp1 : cosPhase x < 32768 := by omega
  have hi := cosIndex_six _ hp0 hp1
  have hf := cosFract_six _ hp0 hp1
  have h8 : (x + 0x2000) % 0x8000 = cosPhase x := by omega
  rw [h8] at hp hra hrb
  have ha : IsInt16 a := by
    unfold tableRead at hra
    split at hra
    · simp at hra
    · obtain ⟨v, _, hv⟩ := Option.map_eq_some'.1 hra
      rw [← hv]; exact isInt16_wrap16 v
  have hb : IsInt16 b := by
    unfold tableRead at hrb
    split at hrb
    · simp at hrb
    · obtain ⟨v, _, hv⟩ := Option.map_eq_some'.1 hrb
      rw [← hv]; exact isInt16_wrap16 v
  have hw : wrap32 (cosIndex 6 (cosPhase x) + 1) = cosPhase x / 64 + 1 := by
    rw [hi]; unfold wrap32; omega
  have hI := cosInterp_eq 0 a b (by omega) (by omega) ha hb
  have hval : cosInterp 0 a b = 2 * (a / 2) := by
    rw [show (0 : Int) = 0 * 512 by norm_num, hI]
    omega
  have hres : plp_cos_q16s_rv32im 6 sinTable_q16 x = some (2 * (a / 2)) := by
    unfold plp_cos_q16s_rv32im
    simp only [hw, hf, hp]
    rw [hi]
    simp only [hra, hrb, zero_mul, hval]
  refine ⟨hres, by omega, by decide, ?_⟩
  intro _ ha7
  rw [hres, ha7]
  rfl

theorem cos_grid_point_clears_lsb_witness :
    (((64 - 0x2000 + 0x2000) % 0x8000) % 64 = 0 ∧
      tableRead [5, 0x7FFF, -3] (((64 - 0x2000 + 0x2000) % 0x8000) / 64) = some 0x7FFF ∧
      tableRead [5, 0x7FFF, -3] (((64 - 0x2000 + 0x2000) % 0x8000) / 64 + 1) = some (-3)) ∧
    plp_cos_q16s_rv32im 6 [5, 0x7FFF, -3] (64 - 0x2000) = some (2 * (0x7FFF / 2)) ∧
    2 * ((0x7FFF : Int) / 2) = 0x7FFF - 0x7FFF % 2 :=
  have h := cos_grid_point_clears_lsb [5, 0x7FFF, -3] (64 - 0x2000) 0x7FFF (-3)
    (by decide) (by decide) (by decide)
  ⟨⟨by decide, by decide, by decide⟩, h.1, h.2.1⟩

/-! ## The reference kernel: overflow, degenerate dimensions, identity -/

theorem kernel_i32_cell (pSrcA pSrcB M N O pDstC : Nat) (h : Heap)
    (hC : 2 * (M * O) ≤ 4294967296) (m o : Nat) (hm : m < M) (ho : o < O) :
    (plp_mat_mult_cmplx_i16s_rv32im pSrcA pSrcB M N O pDstC h).i32 pDstC (2 * (m * O + o))
        = (cellSums h.i16 pSrcA pSrcB N O m o).1 ∧
    (plp_mat_mult_cmplx_i16s_rv32im pSrcA pSrcB M N O pDstC h).i32 pDstC (2 * (m * O + o) + 1)
        = (cellSums h.i16 pSrcA pSrcB N O m o).2 := by
  rw [kernel_eq]
  have hnd := kernelStores_keys_nodup h.i16 pSrcA pSrcB M N O pDstC hC
  constructor
  · refine storeAll_i32_of_mem h _ _ _ _ hnd ?_
    refine cellStores_mem_kernelStores _ _ _ M _ _ _ m o hm ho _ ?_
    simp [cellStores, cidx_eq m O o 0 M hm ho (by omega) hC]
  · refine storeAll_i32_of_mem h _ _ _ _ hnd ?_
    refine cellStores_mem_kernelStores _ _ _ M _ _ _ m o hm ho _ ?_
    simp [cellStores, cidx_eq m O o 1 M hm ho (by omega) hC]

/-- C14: no saturation. With `M = N = O = 1` and `A = B = [-32768, -32768]` the
exact product is `0 + 2^31 i`; the kernel writes `C = [0, -2147483648]`, the
two's-complement wrap of the imaginary part, and not the clamped
`[0, 2147483647]`. -/
theorem mat_mult_cmplx_wraps (c : List Int) :
    exactRe (mkHeap [-32768, -32768] [-32768, -32768] c).i16 0 1 1 1 0 0 = 0 ∧
    exactIm (mkHeap [-32768, -32768] [-32768, -32768] c).i16 0 1 1 1 0 0 = 2147483648 ∧
    (plp_mat_mult_cmplx_i16s_rv32im 0 1 1 1 1 2
        (mkHeap [-32768, -32768] [-32768, -32768] c)).read32 2 2 = [0, -2147483648] ∧
    (plp_mat_mult_cmplx_i16s_rv32im 0 1 1 1 1 2
        (mkHeap [-32768, -32768] [-32768, -32768] c)).log = [(2, 0, 0), (2, 1, -2147483648)] ∧
    (plp_mat_mult_cmplx_i16s_rv32im 0 1 1 1 1 2
        (mkHeap [-32768, -32768] [-32768, -32768] c)).read32 2 2 ≠ [0, 2147483647] ∧
    ¬ IsInt32 (exactIm (mkHeap [-32768, -32768] [-32768, -32768] c).i16 0 1 1 1 0 0) := by
  have hre : exactRe (mkHeap [-32768, -32768] [-32768, -32768] c).i16 0 1 1 1 0 0 = 0 := rfl
  have him : exactIm (mkHeap [-32768, -32768] [-32768, -32768] c).i16 0 1 1 1 0 0
      = 2147483648 := rfl
  have hrd : (plp_mat_mult_cmplx_i16s_rv32im 0 1 1 1 1 2
        (mkHeap [-32768, -32768] [-32768, -32768] c)).read32 2 2 = [0, -2147483648] := rfl
  refine ⟨hre, him, hrd, rfl, ?_, ?_⟩
  · rw [hrd]; decide
  · rw [him]; decide

/-- C17: degenerate dimensions. With `N = 0` every one of the `2*M*O` output
slots (addressable with 32-bit indices) is set to 0; with `M = 0` or `O = 0`
the kernel performs no store and leaves the whole memory unchanged. -/
theorem mat_mult_cmplx_degenerate (pSrcA pSrcB M N O pDstC : Nat) (h : Heap) :
    (2 * (M * O) ≤ 4294967296 → ∀ i, i < 2 * (M * O) →
      (plp_mat_mult_cmplx_i16s_rv32im pSrcA pSrcB M 0 O pDstC h).i32 pDstC i = 0) ∧
    plp_mat_mult_cmplx_i16s_rv32im pSrcA pSrcB 0 N O pDstC h = h ∧
    plp_mat_mult_cmplx_i16s_rv32im pSrcA pSrcB M N 0 pDstC h = h ∧
    newStores h (plp_mat_mult_cmplx_i16s_rv32im pSrcA pSrcB 0 N O pDstC h) = [] ∧
    newStores h (plp_mat_mult_cmplx_i16s_rv32im pSrcA pSrcB M N 0 pDstC h) = [] := by
  have hM : plp_mat_mult_cmplx_i16s_rv32im pSrcA pSrcB 0 N O pDstC h = h := rfl
  have hO : plp_mat_mult_cmplx_i16s_rv32im pSrcA pSrcB M N 0 pDstC h = h := by
    rw [kernel_eq]
    have hnil : kernelStores h.i16 pSrcA pSrcB M N 0 pDstC = [] := by
      unfold kernelStores rowStores
      simp
    rw [hnil]; rfl
  refine ⟨?_, hM, hO, ?_, ?_⟩
  · intro hC i hi
    have hO0 : 0 < O := by
      rcases Nat.eq_zero_or_pos O with h0 | h0
      · subst h0; simp at hi
      · exact h0
    have hdiv : i / 2 / O < M := by
      rw [Nat.div_div_eq_div_mul, Nat.div_lt_iff_lt_mul (by positivity)]
      calc i < 2 * (M * O) := hi
        _ = M * (2 * O) := by ring
    have hmod : i / 2 % O < O := Nat.mod_lt _ hO0
    have hcell := kernel_i32_cell pSrcA pSrcB M 0 O pDstC h hC (i / 2 / O) (i / 2 % O) hdiv hmod
    have hsum : cellSums h.i16 pSrcA pSrcB 0 O (i / 2 / O) (i / 2 % O) = (0, 0) := rfl
    rw [hsum] at hcell
    have hrow : i / 2 / O * O + i / 2 % O = i / 2 := Nat.div_add_mod' _ _
    rw [hrow] at hcell
    rcases Nat.mod_two_eq_zero_or_one i with h2 | h2
    · have : 2 * (i / 2) = i := by omega
      rw [← this]; exact hcell.1
    · have : 2 * (i / 2) + 1 = i := by omega
      rw [← this]; exact hcell.2
  · rw [hM]; unfold newStores; simp
  · rw [hO]; unfold newStores; simp

theorem mat_mult_cmplx_degenerate_witness :
    (2 * (2 * 1) ≤ 4294967296 ∧ 3 < 2 * (2 * 1)) ∧
    (plp_mat_mult_cmplx_i16s_rv32im 0 1 2 0 1 2 (mkHeap [] [] [7, 7, 7, 7, 7])).i32 2 3 = 0 :=
  ⟨⟨by decide, by decide⟩,
    (mat_mult_cmplx_degenerate 0 1 2 0 1 2 (mkHeap [] [] [7, 7, 7, 7, 7])).1
      (by decide) 3 (by decide)⟩

theorem terms_eq (mem : Nat → Nat → Int) (pSrcA pSrcB M N O m o n : Nat)
    (hm : m < M) (ho : o < O) (hn : n < N)
    (hA : 2 * (M * N) ≤ 4294967296) (hB : 2 * (N * O) ≤ 4294967296) :
    reTerm mem pSrcA pSrcB N O m o n =
      elemRe mem pSrcA N m n * elemRe mem pSrcB O n o
        - elemIm mem pSrcA N m n * elemIm mem pSrcB O n o ∧
    imTerm mem pSrcA pSrcB N O m o n =
      elemRe mem pSrcA N m n * elemIm mem pSrcB O n o
        + elemIm mem pSrcA N m n * elemRe mem pSrcB O n o := by
  unfold reTerm imTerm elemRe elemIm
  rw [cidx_eq m N n 0 M hm hn (by omega) hA, cidx_eq m N n 1 M hm hn (by omega) hA,
    cidx_eq n O o 0 N hn ho (by omega) hB, cidx_eq n O o 1 N hn ho (by omega) hB]
  exact ⟨rfl, rfl⟩

theorem foldl_macStep_part (mem : Nat → Nat → Int) (pSrcA pSrcB M N O m o k : Nat)
    (hm : m < M) (ho : o < O) (hk : k ≤ N)
    (hA : 2 * (M * N) ≤ 4294967296) (hB : 2 * (N * O) ≤ 4294967296) :
    (List.range k).foldl (macStep mem pSrcA pSrcB N O m o) (0, 0) =
      (wrap32 (partRe mem pSrcA pSrcB N O m o k), wrap32 (partIm mem pSrcA pSrcB N O m o k)) := by
  rw [foldl_macStep]
  unfold partRe partIm
  have hterm := fun n (hn : n ∈ Finset.range k) =>
    terms_eq mem pSrcA pSrcB M N O m o n hm ho
      (Nat.lt_of_lt_of_le (Finset.mem_range.1 hn) hk) hA hB
  rw [Finset.sum_congr rfl (fun n hn => (hterm n hn).1),
    Finset.sum_congr rfl (fun n hn => (hterm n hn).2)]

theorem abs_sum_range_le (t : Nat → Int) (T : Int) (N : Nat) (ht : ∀ n, n < N → |t n| ≤ T)
    (k : Nat) (hk : k ≤ N) : |∑ n ∈ Finset.range k, t n| ≤ k * T := by
  induction k with
  | zero => simp
  | succ k ih =>
    rw [Finset.sum_range_succ]
    have h1 := ih (Nat.le_of_succ_le hk)
    have h2 := ht k hk
    have h3 := abs_add (∑ n ∈ Finset.range k, t n) (t k)
    push_cast
    linarith

theorem abs_mul_le_sq (a b K : Int) (ha : |a| ≤ K) (hb : |b| ≤ K) : |a * b| ≤ K ^ 2 := by
  rw [abs_mul, pow_two]
  exact mul_le_mul ha hb (abs_nonneg b) (le_trans (abs_nonneg a) ha)

theorem elem_abs_le (mem : Nat → Nat → Int) (p R cols i j : Nat) (K : Int)
    (hK : ∀ t, t < 2 * (R * cols) → |ld16 mem p t| ≤ K) (hi : i < R) (hj : j < cols) :
    |elemRe mem p cols i j| ≤ K ∧ |elemIm mem p cols i j| ≤ K := by
  have h1 : (i + 1) * cols ≤ R * cols := Nat.mul_le_mul_right _ hi
  have h2 : (i + 1) * cols = i * cols + cols := by ring
  exact ⟨hK _ (by omega), hK _ (by omega)⟩

theorem isInt32_of_abs_le (x B : Int) (hx : |x| ≤ B) (hB : B ≤ 2147483647) : IsInt32 x := by
  have h := abs_le.1 hx
  unfold IsInt32
  omega

/-- C13: no overflow for bounded inputs. When all entries of `A` and `B` have
absolute value at most `K` with `2 * N * K^2 ≤ 2^31 - 1` (and the index
arithmetic does not wrap), every product, every term and every partial sum of
`sum_re` and `sum_im` lies in the signed 32-bit range, the accumulators hold the
exact partial sums, and each output value is the exact integer real or
imaginary part of `(A*B)[m,o]`. -/
theorem mat_mult_cmplx_no_overflow (pSrcA pSrcB M N O pDstC : Nat) (h : Heap) (K : Int)
    (hA : 2 * (M * N) ≤ 4294967296) (hB : 2 * (N * O) ≤ 4294967296)
    (hC : 2 * (M * O) ≤ 4294967296)
    (hKA : ∀ i, i < 2 * (M * N) → |ld16 h.i16 pSrcA i| ≤ K)
    (hKB : ∀ i, i < 2 * (N * O) → |ld16 h.i16 pSrcB i| ≤ K)
    (hK : 2 * (N : Int) * K ^ 2 ≤ 2147483647)
    (m o : Nat) (hm : m < M) (ho : o < O) :
    (∀ n, n < N →
      IsInt32 (elemRe h.i16 pSrcA N m n * elemRe h.i16 pSrcB O n o) ∧
      IsInt32 (elemIm h.i16 pSrcA N m n * elemIm h.i16 pSrcB O n o) ∧
      IsInt32 (elemRe h.i16 pSrcA N m n * elemIm h.i16 pSrcB O n o) ∧
      IsInt32 (elemIm h.i16 pSrcA N m n * elemRe h.i16 pSrcB O n o) ∧
      IsInt32 (elemRe h.i16 pSrcA N m n * elemRe h.i16 pSrcB O n o
        - elemIm h.i16 pSrcA N m n * elemIm h.i16 pSrcB O n o) ∧
      IsInt32 (elemRe h.i16 pSrcA N m n * elemIm h.i16 pSrcB O n o
        + elemIm h.i16 pSrcA N m n * elemRe h.i16 pSrcB O n o)) ∧
    (∀ k, k ≤ N →
      IsInt32 (partRe h.i16 pSrcA pSrcB N O m o k) ∧
      IsInt32 (partIm h.i16 pSrcA pSrcB N O m o k) ∧
      (List.range k).foldl (macStep h.i16 pSrcA pSrcB N O m o) (0, 0)
        = (partRe h.i16 pSrcA pSrcB N O m o k, partIm h.i16 pSrcA pSrcB N O m o k)) ∧
    (plp_mat_mult_cmplx_i16s_rv32im pSrcA pSrcB M N O pDstC h).i32 pDstC (2 * (m * O + o))
      = exactRe h.i16 pSrcA pSrcB N O m o ∧
    (plp_mat_mult_cmplx_i16s_rv32im pSrcA pSrcB M N O pDstC h).i32 pDstC (2 * (m * O + o) + 1)
      = exactIm h.i16 pSrcA pSrcB N O m o := by
  have hsq : 0 ≤ K ^ 2 := sq_nonneg K
  -- bounds on the four products and the two terms of step `n`
  have hprod : ∀ n, n < N →
      |elemRe h.i16 pSrcA N m n * elemRe h.i16 pSrcB O n o| ≤ K ^ 2 ∧
      |elemIm h.i16 pSrcA N m n * elemIm h.i16 pSrcB O n o| ≤ K ^ 2 ∧
      |elemRe h.i16 pSrcA N m n * elemIm h.i16 pSrcB O n o| ≤ K ^ 2 ∧
      |elemIm h.i16 pSrcA N m n * elemRe h.i16 pSrcB O n o| ≤ K ^ 2 := by
    intro n hn
    obtain ⟨a1, a2⟩ := elem_abs_le h.i16 pSrcA M N m n K hKA hm hn
    obtain ⟨b1, b2⟩ := elem_abs_le h.i16 pSrcB N O n o K hKB hn ho
    exact ⟨abs_mul_le_sq _ _ K a1 b1, abs_mul_le_sq _ _ K a2 b2, abs_mul_le_sq _ _ K a1 b2,
      abs_mul_le_sq _ _ K a2 b1⟩
  have hre : ∀ n, n < N →
      |elemRe h.i16 pSrcA N m n * elemRe h.i16 pSrcB O n o
        - elemIm h.i16 pSrcA N m n * elemIm h.i16 pSrcB O n o| ≤ 2 * K ^ 2 := by
    intro n hn
    obtain ⟨p1, p2, _, _⟩ := hprod n hn
    have := abs_sub (elemRe h.i16 pSrcA N m n * elemRe h.i16 pSrcB O n o)
      (elemIm h.i16 pSrcA N m n * elemIm h.i16 pSrcB O n o)
    linarith
  have him : ∀ n, n < N →
      |elemRe h.i16 pSrcA N m n * elemIm h.i16 pSrcB O n o
        + elemIm h.i16 pSrcA N m n * elemRe h.i16 pSrcB O n o| ≤ 2 * K ^ 2 := by
    intro n hn
    obtain ⟨_, _, p3, p4⟩ := hprod n hn
    have := abs_add (elemRe h.i16 pSrcA N m n * elemIm h.i16 pSrcB O n o)
      (elemIm h.i16 pSrcA N m n * elemRe h.i16 pSrcB O n o)
    linarith
  have hscale : ∀ k : Nat, k ≤ N → (k : Int) * (2 * K ^ 2) ≤ 2147483647 := by
    intro k hk
    have hk' : (k : Int) ≤ (N : Int) := by exact_mod_cast hk
    have : (k : Int) * (2 * K ^ 2) ≤ (N : Int) * (2 * K ^ 2) :=
      mul_le_mul_of_nonneg_right hk' (by linarith)
    linarith
  have hpart : ∀ k, k ≤ N →
      IsInt32 (partRe h.i16 pSrcA pSrcB N O m o k) ∧
      IsInt32 (partIm h.i16 pSrcA pSrcB N O m o k) := by
    intro k hk
    exact ⟨isInt32_of_abs_le _ _ (abs_sum_range_le _ _ N hre k hk) (hscale k hk),
      isInt32_of_abs_le _ _ (abs_sum_range_le _ _ N him k hk) (hscale k hk)⟩
  have hfold : ∀ k, k ≤ N →
      (List.range k).foldl (macStep h.i16 pSrcA pSrcB N O m o) (0, 0)
        = (partRe h.i16 pSrcA pSrcB N O m o k, partIm h.i16 pSrcA pSrcB N O m o k) := by
    intro k hk
    rw [foldl_macStep_part h.i16 pSrcA pSrcB M N O m o k hm ho hk hA hB,
      wrap32_of_isInt32 (hpart k hk).1, wrap32_of_isInt32 (hpart k hk).2]
  have hcell := kernel_i32_cell pSrcA pSrcB M N O pDstC h hC m o hm ho
  have hsums : cellSums h.i16 pSrcA pSrcB N O m o
      = (exactRe h.i16 pSrcA pSrcB N O m o, exactIm h.i16 pSrcA pSrcB N O m o) :=
    hfold N (Nat.le_refl N)
  rw [hsums] at hcell
  refine ⟨?_, fun k hk => ⟨(hpart k hk).1, (hpart k hk).2, hfold k hk⟩, hcell.1, hcell.2⟩
  intro n hn
  have h1 := hscale 1 (by omega)
  have hb1 : K ^ 2 ≤ 2147483647 := by push_cast at h1; linarith
  have hb2 : 2 * K ^ 2 ≤ 2147483647 := by push_cast at h1; linarith
  obtain ⟨p1, p2, p3, p4⟩ := hprod n hn
  exact ⟨isInt32_of_abs_le _ _ p1 hb1, isInt32_of_abs_le _ _ p2 hb1,
    isInt32_of_abs_le _ _ p3 hb1, isInt32_of_abs_le _ _ p4 hb1,
    isInt32_of_abs_le _ _ (hre n hn) hb2, isInt32_of_abs_le _ _ (him n hn) hb2⟩

theorem mat_mult_cmplx_no_overflow_witness :
    (2 * ((2 : Nat) : Int) * 3 ^ 2 ≤ 2147483647 ∧
      (∀ i, i < 2 * (1 * 2) → |ld16 (mkHeap [1, 2, 3, 0] [1, 0, 0, 1] [7, 7]).i16 0 i| ≤ 3) ∧
      (∀ i, i < 2 * (2 * 1) → |ld16 (mkHeap [1, 2, 3, 0] [1, 0, 0, 1] [7, 7]).i16 1 i| ≤ 3)) ∧
    (plp_mat_mult_cmplx_i16s_rv32im 0 1 1 2 1 2 (mkHeap [1, 2, 3, 0] [1, 0, 0, 1] [7, 7])).i32 2
        (2 * (0 * 1 + 0))
      = exactRe (mkHeap [1, 2, 3, 0] [1, 0, 0, 1] [7, 7]).i16 0 1 2 1 0 0 ∧
    (plp_mat_mult_cmplx_i16s_rv32im 0 1 1 2 1 2 (mkHeap [1, 2, 3, 0] [1, 0, 0, 1] [7, 7])).i32 2
        (2 * (0 * 1 + 0) + 1)
      = exactIm (mkHeap [1, 2, 3, 0] [1, 0, 0, 1] [7, 7]).i16 0 1 2 1 0 0 :=
  ⟨⟨by decide, by decide, by decide⟩,
    (mat_mult_cmplx_no_overflow 0 1 1 2 1 2 (mkHeap [1, 2, 3, 0] [1, 0, 0, 1] [7, 7]) 3
      (by decide) (by decide) (by decide) (by decide) (by decide) (by decide)
      0 0 (by decide) (by decide)).2.2⟩

/-- C18: identity. When `B` is the `NxN` complex identity matrix (and the index
arithmetic does not wrap), the kernel with `O = N` writes, for every `m < M`
and `o < N`, the entries `A[2*(m*N+o)]` and `A[2*(m*N+o)+1]` themselves: each
`int16_t` value sign-extended, with no wraparound. -/
theorem mat_mult_cmplx_identity (pSrcA pSrcB M N pDstC : Nat) (h : Heap)
    (hA : 2 * (M * N) ≤ 4294967296) (hB : 2 * (N * N) ≤ 4294967296)
    (hBre : ∀ n, n < N → ∀ o, o < N →
      elemRe h.i16 pSrcB N n o = if n = o then 1 else 0)
    (hBim : ∀ n, n < N → ∀ o, o < N → elemIm h.i16 pSrcB N n o = 0)
    (m o : Nat) (hm : m < M) (ho : o < N) :
    (plp_mat_mult_cmplx_i16s_rv32im pSrcA pSrcB M N N pDstC h).i32 pDstC (2 * (m * N + o))
      = ld16 h.i16 pSrcA (2 * (m * N + o)) ∧
    (plp_mat_mult_cmplx_i16s_rv32im pSrcA pSrcB M N N pDstC h).i32 pDstC (2 * (m * N + o) + 1)
      = ld16 h.i16 pSrcA (2 * (m * N + o) + 1) ∧
    IsInt16 (ld16 h.i16 pSrcA (2 * (m * N + o))) ∧
    IsInt16 (ld16 h.i16 pSrcA (2 * (m * N + o) + 1)) := by
  have hcell := kernel_i32_cell pSrcA pSrcB M N N pDstC h hA m o hm ho
  rw [cellSums_eq h.i16 pSrcA pSrcB M N N m o hm ho hA hB] at hcell
  have hre : exactRe h.i16 pSrcA pSrcB N N m o = elemRe h.i16 pSrcA N m o := by
    unfold exactRe
    rw [Finset.sum_eq_single o]
    · rw [hBre o ho o ho, hBim o ho o ho]; simp
    · intro n hn hne
      have hn' := Finset.mem_range.1 hn
      rw [hBre n hn' o ho, hBim n hn' o ho, if_neg hne]; simp
    · intro hno
      exact absurd (Finset.mem_range.2 ho) hno
  have him : exactIm h.i16 pSrcA pSrcB N N m o = elemIm h.i16 pSrcA N m o := by
    unfold exactIm
    rw [Finset.sum_eq_single o]
    · rw [hBre o ho o ho, hBim o ho o ho]; simp
    · intro n hn hne
      have hn' := Finset.mem_range.1 hn
      rw [hBre n hn' o ho, hBim n hn' o ho, if_neg hne]; simp
    · intro hno
      exact absurd (Finset.mem_range.2 ho) hno
  rw [hre, him] at hcell
  unfold elemRe elemIm ld16 at hcell
  simp only [wrap32_wrap16] at hcell
  exact ⟨hcell.1, hcell.2, isInt16_wrap16 _, isInt16_wrap16 _⟩

theorem mat_mult_cmplx_identity_witness :
    ((∀ n, n < 2 → ∀ o, o < 2 →
        elemRe (mkHeap [1, -2, 3, 4] [1, 0, 0, 0, 0, 0, 1, 0] [7, 7, 7, 7]).i16 1 2 n o
          = if n = o then 1 else 0) ∧
      (∀ n, n < 2 → ∀ o, o < 2 →
        elemIm (mkHeap [1, -2, 3, 4] [1, 0, 0, 0, 0, 0, 1, 0] [7, 7, 7, 7]).i16 1 2 n o = 0)) ∧
    (plp_mat_mult_cmplx_i16s_rv32im 0 1 1 2 2 2
        (mkHeap [1, -2, 3, 4] [1, 0, 0, 0, 0, 0, 1, 0] [7, 7, 7, 7])).i32 2 (2 * (0 * 2 + 1))
      = ld16 (mkHeap [1, -2, 3, 4] [1, 0, 0, 0, 0, 0, 1, 0] [7, 7, 7, 7]).i16 0 (2 * (0 * 2 + 1)) ∧
    (plp_mat_mult_cmplx_i16s_rv32im 0 1 1 2 2 2
        (mkHeap [1, -2, 3, 4] [1, 0, 0, 0, 0, 0, 1, 0] [7, 7, 7, 7])).i32 2 (2 * (0 * 2 + 1) + 1)
      = ld16 (mkHeap [1, -2, 3, 4] [1, 0, 0, 0, 0, 0, 1, 0] [7, 7, 7, 7]).i16 0
          (2 * (0 * 2 + 1) + 1) :=
  have h := mat_mult_cmplx_identity 0 1 1 2 2 (mkHeap [1, -2, 3, 4] [1, 0, 0, 0, 0, 0, 1, 0]
    [7, 7, 7, 7]) (by decide) (by decide) (by decide) (by decide) 0 1 (by decide) (by decide)
  ⟨⟨by decide, by decide⟩, h.1, h.2.1⟩

/-! ## The glue code on the cluster side -/

/-- C15: when `rt_cluster_id()` is not `ARCHI_FC_CID`, the glue code makes
exactly one `rt_team_fork` call, for `nPE` workers running
`plp_mat_mult_trans_cmplx_i16p_xpulpv2`, with a task descriptor whose fields
are the arguments unchanged; it prints nothing, and the state it returns is the
state that single call returns on the untouched initial state, so the glue code
itself stores nothing. -/
theorem parallel_on_cluster_forks_once (ARCHI_FC_CID pSrcA pSrcB M N O nPE pDstC : Nat)
    (w : World) (hcl : w.cluster_id ≠ ARCHI_FC_CID) :
    (plp_mat_mult_trans_cmplx_i16_parallel ARCHI_FC_CID pSrcA pSrcB M N O nPE pDstC w).forks
      = w.forks ++
          [{ nPE := nPE, entry := WorkerFn.plp_mat_mult_trans_cmplx_i16p_xpulpv2,
             args := { pSrcA := pSrcA, pSrcB := pSrcB, M := M, N := N, O := O, nPE := nPE,
                       pDstC := pDstC } }] ∧
    (plp_mat_mult_trans_cmplx_i16_parallel ARCHI_FC_CID pSrcA pSrcB M N O nPE pDstC w).stdout
      = w.stdout ∧
    plp_mat_mult_trans_cmplx_i16_parallel ARCHI_FC_CID pSrcA pSrcB M N O nPE pDstC w
      = rt_team_fork nPE WorkerFn.plp_mat_mult_trans_cmplx_i16p_xpulpv2
          { pSrcA := pSrcA, pSrcB := pSrcB, M := M, N := N, O := O, nPE := nPE, pDstC := pDstC }
          w ∧
    (plp_mat_mult_trans_cmplx_i16_parallel ARCHI_FC_CID pSrcA pSrcB M N O nPE pDstC w).heap
      = teamRun (List.range nPE) WorkerFn.plp_mat_mult_trans_cmplx_i16p_xpulpv2
          { pSrcA := pSrcA, pSrcB := pSrcB, M := M, N := N, O := O, nPE := nPE, pDstC := pDstC }
          w.heap := by
  unfold plp_mat_mult_trans_cmplx_i16_parallel
  rw [if_neg hcl]
  exact ⟨rfl, rfl, rfl, rfl⟩

theorem parallel_on_cluster_forks_once_witness :
    (0 : Nat) ≠ 32 ∧
    (plp_mat_mult_trans_cmplx_i16_parallel 32 10 11 3 4 5 2 12
        (mkWorld 0 (mkHeap [] [] []))).forks
      = [{ nPE := 2, entry := WorkerFn.plp_mat_mult_trans_cmplx_i16p_xpulpv2,
           args := { pSrcA := 10, pSrcB := 11, M := 3, N := 4, O := 5, nPE := 2, pDstC := 12 } }] ∧
    (plp_mat_mult_trans_cmplx_i16_parallel 32 10 11 3 4 5 2 12
        (mkWorld 0 (mkHeap [] [] []))).stdout = [] :=
  have h := parallel_on_cluster_forks_once 32 10 11 3 4 5 2 12 (mkWorld 0 (mkHeap [] [] []))
    (by decide)
  ⟨by decide, h.1, h.2.1⟩

end PulpDsp
